import Mathlib

set_option linter.unusedVariables false

namespace SkillsLoader

/-!
Shallow embedding of the agent-skills-loader pipeline (src/utils.ts and
src/skills.ts).  JavaScript strings are modelled as Lean strings, with every
string operation implemented on the underlying character list so that all
definitions evaluate by kernel reduction.  The filesystem, the YAML parser and
the gitignore matcher of the external ignore package are out-of-scope
collaborators and are modelled as oracle parameters.
-/

/-- Whitespace test used by the JavaScript String.prototype.trim
(ECMAScript WhiteSpace and LineTerminator code points). -/
def isJsWhitespace (c : Char) : Bool :=
  c.toNat = 9 || c.toNat = 10 || c.toNat = 11 || c.toNat = 12 || c.toNat = 13 ||
  c.toNat = 32 || c.toNat = 0xA0 || c.toNat = 0x1680 ||
  (0x2000 ≤ c.toNat && c.toNat ≤ 0x200A) || c.toNat = 0x2028 || c.toNat = 0x2029 ||
  c.toNat = 0x202F || c.toNat = 0x205F || c.toNat = 0x3000 || c.toNat = 0xFEFF

/-- Character-list form of String.prototype.trim: drop leading and trailing
JavaScript whitespace. -/
def jsTrimCore (s : List Char) : List Char :=
  ((s.dropWhile isJsWhitespace).reverse.dropWhile isJsWhitespace).reverse

/-- String form of String.prototype.trim. -/
def jsTrimStr (s : String) : String :=
  String.mk (jsTrimCore s.data)

/-- Model of String.prototype.startsWith. -/
def jsStartsWith (s pre : String) : Bool :=
  pre.data.isPrefixOf s.data

/-- Model of String.prototype.endsWith. -/
def jsEndsWith (s suf : String) : Bool :=
  suf.data.isSuffixOf s.data

/-- Model of String.prototype.slice with only a start index. -/
def jsDropStr (s : String) (n : Nat) : String :=
  String.mk (s.data.drop n)

/-- Scan helper for String.prototype.indexOf: first position, counting from
i, at which needle occurs in the remaining hay. -/
def indexOfAux (needle : List Char) : List Char → Nat → Option Nat
  | [], i => if needle.isPrefixOf [] then some i else none
  | c :: rest, i =>
    if needle.isPrefixOf (c :: rest) then some i else indexOfAux needle rest (i + 1)

/-- Model of String.prototype.indexOf(needle, start) on character lists. -/
def jsIndexOfFrom (needle hay : List Char) (start : Nat) : Option Nat :=
  indexOfAux needle (hay.drop start) start

/-- Model of String.prototype.includes. -/
def jsIncludes (s sub : String) : Bool :=
  (jsIndexOfFrom sub.data s.data 0).isSome

/-- Specification-side occurrence test: does needle occur contiguously in
hay?  Used to state claims, independently of the indexOf scan. -/
def hasSeq (needle : List Char) : List Char → Bool
  | [] => needle.isPrefixOf []
  | c :: rest => needle.isPrefixOf (c :: rest) || hasSeq needle rest

/-- Line-ending normalization of src/utils.ts: the composition of
replace(CRLF, LF) with replace(CR, LF), fused into one left-to-right pass
(each CRLF pair becomes one LF, each remaining CR becomes LF). -/
def normalizeNewlinesCore : List Char → List Char
  | [] => []
  | '\r' :: '\n' :: rest => '\n' :: normalizeNewlinesCore rest
  | '\r' :: rest => '\n' :: normalizeNewlinesCore rest
  | c :: rest => c :: normalizeNewlinesCore rest

/-- Character-list core of extractFrontmatter from src/utils.ts.  Returns the
optional YAML block and the body. -/
def extractFrontmatterCore (content : List Char) : Option (List Char) × List Char :=
  let normalized := normalizeNewlinesCore content
  if ("---".data).isPrefixOf normalized then
    match jsIndexOfFrom ("\n---".data) normalized 3 with
    | none => (none, normalized)
    | some endIndex =>
      (some ((normalized.take endIndex).drop 4), jsTrimCore (normalized.drop (endIndex + 4)))
  else (none, normalized)

/-- String-level extractFrontmatter, the direct translation of the source. -/
def extractFrontmatter (content : String) : Option String × String :=
  match extractFrontmatterCore content.data with
  | (y, b) => (y.map String.mk, String.mk b)

/-- Split of an ignore file into lines, the translation of
content.split of the regular expression matching an optional CR before LF. -/
def splitLinesCore : List Char → List (List Char)
  | [] => [[]]
  | '\r' :: '\n' :: rest => [] :: splitLinesCore rest
  | '\n' :: rest => [] :: splitLinesCore rest
  | c :: rest =>
    match splitLinesCore rest with
    | [] => [[c]]
    | l :: ls => (c :: l) :: ls

/-- Character class of the skill-name regular expression, lowercase letters,
digits and hyphen. -/
def isNameChar (c : Char) : Bool :=
  c.isLower || c.isDigit || c == '-'

/-- Model of the test of the anchored regular expression requiring one or
more characters of the name class. -/
def regexNameTest (s : String) : Bool :=
  !s.data.isEmpty && s.data.all isNameChar

/-- Split of a POSIX path at slashes, used by the node:path models. -/
def splitOnSlash : List Char → List (List Char)
  | [] => [[]]
  | '/' :: rest => [] :: splitOnSlash rest
  | c :: rest =>
    match splitOnSlash rest with
    | [] => [[c]]
    | l :: ls => (c :: l) :: ls

/-- Model of path.basename from node:path for POSIX paths: the last nonempty
path component, or empty when there is none. -/
def basename (p : String) : String :=
  match ((splitOnSlash p.data).filter (fun l => l ≠ [])).getLast? with
  | some l => String.mk l
  | none => ""

/-- Model of path.dirname from node:path for POSIX paths. -/
def dirname (p : String) : String :=
  match splitOnSlash p.data with
  | [] => "."
  | [_] => "."
  | comps =>
    let j := List.intercalate ['/'] comps.dropLast
    if j = [] then "/" else String.mk j

/-- Model of path.join from node:path for one extra component. -/
def joinPath (dir name : String) : String :=
  if jsEndsWith dir "/" then dir ++ name else dir ++ "/" ++ name

/-- Model of path.relative from node:path, for the walker where the second
path always lies at or below the first. -/
def relativePath (root full : String) : String :=
  if full = root then ""
  else if jsStartsWith full (root ++ "/") then jsDropStr full (root.data.length + 1)
  else full

/-- Model of path.isAbsolute for POSIX paths. -/
def isAbsolutePath (p : String) : Bool :=
  jsStartsWith p "/"

/-- Model of path.resolve(cwd, raw) for a non-absolute raw path. -/
def resolvePath (cwd raw : String) : String :=
  if jsEndsWith cwd "/" then cwd ++ raw else cwd ++ "/" ++ raw

/-- Model of toPosixPath from src/skills.ts: on POSIX the separator already
is the forward slash, so splitting at it and rejoining is the identity. -/
def toPosixPath (p : String) : String := p

/-- Skill record from src/types.ts. -/
structure Skill where
  name : String
  description : String
  filePath : String
  baseDir : String
  source : String
  disableModelInvocation : Bool
deriving DecidableEq

/-- Collision detail from src/types.ts. -/
structure ResourceCollision where
  resourceType : String
  name : String
  winnerPath : String
  loserPath : String
deriving DecidableEq

/-- Diagnostic record from src/types.ts. -/
structure ResourceDiagnostic where
  type : String
  message : String
  path : Option String
  collision : Option ResourceCollision
deriving DecidableEq

/-- Recognized frontmatter fields from src/types.ts; the last field models
the key disable-model-invocation. -/
structure SkillFrontmatter where
  name : Option String
  description : Option String
  disableModelInvocation : Option Bool
deriving DecidableEq

/-- Result record of the walker and the loader. -/
structure LoadSkillsResult where
  skills : List Skill
  diagnostics : List ResourceDiagnostic
deriving DecidableEq

/-- Oracle for the external YAML parse primitive: it may throw (error), or
produce null (ok none), or produce a mapping (ok some). -/
abbrev YamlParse := String → Except String (Option SkillFrontmatter)

/-- Oracle for the matching side of the external ignore package: given the
accumulated pattern list, decide whether a relative path is ignored. -/
abbrev IgnoresPred := List String → String → Bool

def MAX_NAME_LENGTH : Nat := 64

def MAX_DESCRIPTION_LENGTH : Nat := 1024

/-- Translation of validateName from src/skills.ts. -/
def validateName (name parentDirName : String) : List String :=
  (if name ≠ parentDirName then
    ["name \"" ++ name ++ "\" does not match parent directory \"" ++ parentDirName ++ "\""]
   else []) ++
  (if name.data.length > MAX_NAME_LENGTH then
    ["name exceeds 64 characters (" ++ toString name.data.length ++ ")"]
   else []) ++
  (if regexNameTest name = false then
    ["name contains invalid characters (must be lowercase a-z, 0-9, hyphens only)"]
   else []) ++
  (if jsStartsWith name "-" || jsEndsWith name "-" then
    ["name must not start or end with a hyphen"]
   else []) ++
  (if jsIncludes name "--" then
    ["name must not contain consecutive hyphens"]
   else [])

/-- Translation of validateDescription from src/skills.ts; none models the
absent description field. -/
def validateDescription (description : Option String) : List String :=
  match description with
  | none => ["description is required"]
  | some d =>
    if d = "" ∨ jsTrimStr d = "" then ["description is required"]
    else if d.data.length > MAX_DESCRIPTION_LENGTH then
      ["description exceeds 1024 characters (" ++ toString d.data.length ++ ")"]
    else []

def emptyFrontmatter : SkillFrontmatter := ⟨none, none, none⟩

/-- Translation of parseFrontmatter from src/utils.ts: a missing or empty
YAML block, a parse failure, or a null parse all give the empty mapping. -/
def parseFrontmatter (yp : YamlParse) (content : String) : SkillFrontmatter × String :=
  match extractFrontmatter content with
  | (yamlString, body) =>
    match yamlString with
    | none => (emptyFrontmatter, body)
    | some y =>
      if y = "" then (emptyFrontmatter, body)
      else
        match yp y with
        | .ok (some fm) => (fm, body)
        | .ok none => (emptyFrontmatter, body)
        | .error _ => (emptyFrontmatter, body)

def warningDiag (message path : String) : ResourceDiagnostic :=
  ⟨"warning", message, some path, none⟩

/-- Translation of loadSkillFromFile from src/skills.ts.  The outcome of the
readFileSync call is passed in as an Except value; the catch block of the
source turns a read failure into one warning diagnostic. -/
def loadSkillFromFile (readResult : Except String String) (yp : YamlParse)
    (filePath source : String) : Option Skill × List ResourceDiagnostic :=
  match readResult with
  | .error msg => (none, [warningDiag msg filePath])
  | .ok rawContent =>
    let fm := (parseFrontmatter yp rawContent).1
    let skillDir := dirname filePath
    let parentDirName := basename skillDir
    let descDiags := (validateDescription fm.description).map (fun m => warningDiag m filePath)
    let name :=
      match fm.name with
      | some n => if n = "" then parentDirName else n
      | none => parentDirName
    let nameDiags := (validateName name parentDirName).map (fun m => warningDiag m filePath)
    let diagnostics := descDiags ++ nameDiags
    match fm.description with
    | none => (none, diagnostics)
    | some d =>
      if d = "" ∨ jsTrimStr d = "" then (none, diagnostics)
      else
        (some ⟨name, d, filePath, skillDir, source, fm.disableModelInvocation == some true⟩,
         diagnostics)

/-! Filesystem tree model for the directory walker.  A directory entry is a
file (whose content field carries the outcome of reading it), a directory
with its own recursive listing, a broken symbolic link (one whose stat call
throws, which the walker skips), or an entry that is neither a file nor a
directory.  Symbolic links that do resolve are represented directly by the
node kind of their target, matching the statSync resolution in the source. -/

mutual
inductive FNode where
  | file (name : String) (content : Except String String)
  | dir (name : String) (entries : FNodes)
  | broken (name : String)
  | other (name : String)
inductive FNodes where
  | nil
  | cons (head : FNode) (tail : FNodes)
end

/-- Name of a directory entry. -/
def FNode.entryName : FNode → String
  | .file n _ => n
  | .dir n _ => n
  | .broken n => n
  | .other n => n

/-- Lookup of a file entry by exact name, modelling the existsSync plus
readFileSync pair of addIgnoreRules; a directory of that name would make the
read throw, which the source catches and skips, hence none. -/
def findFileContent : FNodes → String → Option (Except String String)
  | .nil, _ => none
  | .cons (.file n c) rest, target =>
    if n = target then some c else findFileContent rest target
  | .cons _ rest, target => findFileContent rest target

def IGNORE_FILE_NAMES : List String := [".gitignore", ".ignore", ".fdignore"]

/-- Translation of prefixIgnorePattern from src/skills.ts. -/
def prefixIgnorePattern (line pre : String) : Option String :=
  let trimmed := jsTrimStr line
  if trimmed = "" then none
  else if jsStartsWith trimmed "#" && !jsStartsWith trimmed "\\#" then none
  else
    let negStrip :=
      if jsStartsWith line "!" then (true, jsDropStr line 1)
      else if jsStartsWith line "\\!" then (false, jsDropStr line 1)
      else (false, line)
    let negated := negStrip.1
    let pat := if jsStartsWith negStrip.2 "/" then jsDropStr negStrip.2 1 else negStrip.2
    let prefixed := if pre = "" then pat else pre ++ pat
    some (if negated then "!" ++ prefixed else prefixed)

/-- Translation of addIgnoreRules from src/skills.ts over the tree model;
the matcher state is the accumulated pattern list. -/
def addIgnoreRules (ig : List String) (entries : FNodes) (dirPath root : String) : List String :=
  let relativeDir := relativePath root dirPath
  let pre := if relativeDir = "" then "" else toPosixPath relativeDir ++ "/"
  IGNORE_FILE_NAMES.foldl
    (fun acc filename =>
      match findFileContent entries filename with
      | none => acc
      | some (.error _) => acc
      | some (.ok content) =>
        acc ++ (splitLinesCore content.data).filterMap
          (fun line => prefixIgnorePattern (String.mk line) pre))
    ig

/-- Empty walk result. -/
def emptyResult : LoadSkillsResult := ⟨[], []⟩

/-! Translation of the entry loop of loadSkillsFromDirInternal from
src/skills.ts.  walkEntry handles one directory entry, walkEntries folds over
a listing threading the shared mutable matcher state; a directory entry
re-runs the body of loadSkillsFromDirInternal on its own listing (its rules
are merged first, then its entries are processed with includeRootFiles set to
false, the same matcher and the same root).  Entries that are neither files
nor directories are skipped by the isFile test of the source. -/

mutual
def walkEntry (yp : YamlParse) (ignF : IgnoresPred) (source root : String)
    (dirPath : String) (includeRootFiles : Bool) (e : FNode) (ig : List String) :
    LoadSkillsResult × List String :=
  let ename := e.entryName
  if jsStartsWith ename "." then (emptyResult, ig)
  else if ename = "node_modules" then (emptyResult, ig)
  else
    let fullPath := joinPath dirPath ename
    match e with
    | .broken _ => (emptyResult, ig)
    | .other _ => (emptyResult, ig)
    | .file _ content =>
      let relPath := toPosixPath (relativePath root fullPath)
      if ignF ig relPath then (emptyResult, ig)
      else
        let isRootMd := includeRootFiles && jsEndsWith ename ".md"
        let isSkillMd := !includeRootFiles && ename == "SKILL.md"
        if isRootMd || isSkillMd then
          let res := loadSkillFromFile content yp fullPath source
          (⟨(match res.1 with | some s => [s] | none => []), res.2⟩, ig)
        else (emptyResult, ig)
    | .dir _ sub =>
      let relPath := toPosixPath (relativePath root fullPath)
      if ignF ig (relPath ++ "/") then (emptyResult, ig)
      else
        walkEntries yp ignF source root fullPath false sub
          (addIgnoreRules ig sub fullPath root)

def walkEntries (yp : YamlParse) (ignF : IgnoresPred) (source root : String)
    (dirPath : String) (includeRootFiles : Bool) (es : FNodes) (ig : List String) :
    LoadSkillsResult × List String :=
  match es with
  | .nil => (emptyResult, ig)
  | .cons e rest =>
    let r1 := walkEntry yp ignF source root dirPath includeRootFiles e ig
    let r2 := walkEntries yp ignF source root dirPath includeRootFiles rest r1.2
    (⟨r1.1.skills ++ r2.1.skills, r1.1.diagnostics ++ r2.1.diagnostics⟩, r2.2)
end

/-- Translation of loadSkillsFromDirInternal from src/skills.ts: merge the
ignore rules of the directory itself, then process its entries.  The
existsSync guard of the source holds by construction in the tree model. -/
def loadSkillsFromDirInternal (yp : YamlParse) (ignF : IgnoresPred)
    (dirPath source : String) (entries : FNodes) (includeRootFiles : Bool)
    (ig : List String) (root : String) : LoadSkillsResult × List String :=
  walkEntries yp ignF source root dirPath includeRootFiles entries
    (addIgnoreRules ig entries dirPath root)

/-- File type reported by the stat primitive. -/
inductive FType where
  | file
  | dir
  | other
deriving DecidableEq

/-- Oracle bundle for the node:fs primitives used by the loader.  The
primitives that can throw return Except values; existsSync never throws.
readdirTree gives the recursive listing of a directory path, consumed
structurally by the walker. -/
structure FS where
  existsSync : String → Bool
  statSync : String → Except String FType
  readFileSync : String → Except String String
  realpathSync : String → Except String String
  readdirTree : String → FNodes

/-- Mutable state of one loadSkills call: the insertion-ordered name map, the
set of resolved file identities, and the two diagnostic streams. -/
structure LoaderState where
  skillMap : List (String × Skill)
  realPathSet : List String
  allDiagnostics : List ResourceDiagnostic
  collisionDiagnostics : List ResourceDiagnostic
deriving DecidableEq

def initState : LoaderState := ⟨[], [], [], []⟩

/-- The realpathSync call of addSkills with its catch: fall back to the
original path when resolution fails. -/
def realpathOf (rp : String → Except String String) (p : String) : String :=
  match rp p with
  | .ok q => q
  | .error _ => p

def collisionDiag (existing skill : Skill) : ResourceDiagnostic :=
  ⟨"collision", "name \"" ++ skill.name ++ "\" collision", some skill.filePath,
    some ⟨"skill", skill.name, existing.filePath, skill.filePath⟩⟩

/-- Body of the for-loop of addSkills from src/skills.ts for one skill. -/
def addSkillOne (rp : String → Except String String) (st : LoaderState) (skill : Skill) :
    LoaderState :=
  let realPath := realpathOf rp skill.filePath
  if st.realPathSet.contains realPath then st
  else
    match List.lookup skill.name st.skillMap with
    | some existing =>
      { st with collisionDiagnostics := st.collisionDiagnostics ++ [collisionDiag existing skill] }
    | none =>
      { st with skillMap := st.skillMap ++ [(skill.name, skill)],
                realPathSet := st.realPathSet ++ [realPath] }

/-- Translation of addSkills from src/skills.ts. -/
def addSkills (rp : String → Except String String) (st : LoaderState)
    (result : LoadSkillsResult) : LoaderState :=
  result.skills.foldl (addSkillOne rp)
    { st with allDiagnostics := st.allDiagnostics ++ result.diagnostics }

def pushWarning (st : LoaderState) (message path : String) : LoaderState :=
  { st with allDiagnostics := st.allDiagnostics ++ [warningDiag message path] }

/-- One iteration of the path loop of loadSkills from src/skills.ts.  The
try/catch of the source around the stat branch is Except.tryCatch; a
propagated stat failure becomes a warning diagnostic. -/
def processPathM (fsys : FS) (yp : YamlParse) (ignF : IgnoresPred) (cwd : String)
    (st : LoaderState) (rawPath : String) : Except String LoaderState :=
  let resolvedPath := if isAbsolutePath rawPath then rawPath else resolvePath cwd rawPath
  if fsys.existsSync resolvedPath = false then
    .ok (pushWarning st "skill path does not exist" resolvedPath)
  else
    Except.tryCatch
      (do
        let stats ← fsys.statSync resolvedPath
        match stats with
        | .dir =>
          .ok (addSkills fsys.realpathSync st
            (loadSkillsFromDirInternal yp ignF resolvedPath "path"
              (fsys.readdirTree resolvedPath) true [] resolvedPath).1)
        | .file =>
          if jsEndsWith resolvedPath ".md" then
            let result := loadSkillFromFile (fsys.readFileSync resolvedPath) yp resolvedPath "path"
            match result.1 with
            | some skill => .ok (addSkills fsys.realpathSync st ⟨[skill], result.2⟩)
            | none => .ok { st with allDiagnostics := st.allDiagnostics ++ result.2 }
          else .ok st
        | .other => .ok st)
      (fun e => .ok (pushWarning st e resolvedPath))

/-- The path loop of loadSkills. -/
def loadSkillsLoop (fsys : FS) (yp : YamlParse) (ignF : IgnoresPred) (cwd : String) :
    LoaderState → List String → Except String LoaderState
  | st, [] => .ok st
  | st, p :: ps => do
    let st2 ← processPathM fsys yp ignF cwd st p
    loadSkillsLoop fsys yp ignF cwd st2 ps

/-- Options of loadSkills; the cwd default of the source is the ambient
process working directory, supplied here by the caller. -/
structure LoadSkillsOptions where
  cwd : String
  skillPaths : List String

/-- Translation of loadSkills from src/skills.ts: run the path loop from the
empty state, then assemble the kept skills in insertion order followed by the
content diagnostics and the collision diagnostics. -/
def loadSkillsM (fsys : FS) (yp : YamlParse) (ignF : IgnoresPred)
    (opts : LoadSkillsOptions) : Except String LoadSkillsResult := do
  let st ← loadSkillsLoop fsys yp ignF opts.cwd initState opts.skillPaths
  .ok ⟨st.skillMap.map Prod.snd, st.allDiagnostics ++ st.collisionDiagnostics⟩

/-- Single-character global replacement, the translation of the chained
String.prototype.replace calls of escapeXml (each pattern is one char). -/
def replaceChar (c : Char) (rep : List Char) (l : List Char) : List Char :=
  l.flatMap (fun x => if x = c then rep else [x])

/-- Translation of escapeXml from src/utils.ts on character lists, in the
same replacement order as the source. -/
def escapeXmlData (s : List Char) : List Char :=
  replaceChar '\'' "&apos;".data
    (replaceChar '"' "&quot;".data
      (replaceChar '>' "&gt;".data
        (replaceChar '<' "&lt;".data
          (replaceChar '&' "&amp;".data s))))

def escapeXml (s : String) : String :=
  String.mk (escapeXmlData s.data)

def promptPreamble : List String :=
  ["\n\nThe following skills provide specialized instructions for specific tasks.",
   "Use the read tool to load a skill's file when the task matches its description.",
   "When a skill file references a relative path, resolve it against the skill directory (parent of SKILL.md / dirname of the path) and use that absolute path in tool commands.",
   "",
   "<available_skills>"]

/-- The five lines pushed per visible skill by formatSkillsForPrompt. -/
def skillBlockLines (skill : Skill) : List String :=
  ["  <skill>",
   "    <name>" ++ escapeXml skill.name ++ "</name>",
   "    <description>" ++ escapeXml skill.description ++ "</description>",
   "    <location>" ++ escapeXml skill.filePath ++ "</location>",
   "  </skill>"]

/-- Translation of lines.join with a newline separator. -/
def joinLines (lines : List String) : String :=
  String.mk (List.intercalate ['\n'] (lines.map String.data))

/-- Translation of formatSkillsForPrompt from src/skills.ts. -/
def formatSkillsForPrompt (skills : List Skill) : String :=
  let visible := skills.filter (fun s => !s.disableModelInvocation)
  if visible.isEmpty then ""
  else joinLines (promptPreamble ++ visible.flatMap skillBlockLines ++ ["</available_skills>"])

/-- Modelled from the spec: the matching side of the external ignore package
(ig.ignores), which is out of scope for the source, restricted to the
literal, wildcard-free patterns the claims exercise.  A pattern ignores the
path equal to it and every path below it; directory paths are tested with a
trailing slash; a later matching rule wins, a negated rule re-includes. -/
def literalPatternMatches (pat path : String) : Bool :=
  path == pat || jsStartsWith path (pat ++ "/")

/-- Modelled from the spec: gitignore-style decision over the accumulated
pattern list with last-match-wins semantics, for literal patterns. -/
def matcherIgnores (patterns : List String) (path : String) : Bool :=
  patterns.foldl
    (fun acc pat =>
      if jsStartsWith pat "!" then
        (if literalPatternMatches (jsDropStr pat 1) path then false else acc)
      else
        (if literalPatternMatches pat path then true else acc))
    false

/-- Specification-side split at newline characters, used to count block
lines in the formatter output. -/
def splitOnNlCore : List Char → List (List Char)
  | [] => [[]]
  | c :: rest =>
    if c = '\n' then [] :: splitOnNlCore rest
    else
      match splitOnNlCore rest with
      | [] => [[c]]
      | l :: ls => (c :: l) :: ls

/-- Specification-side per-character XML escaping map: the five special
characters become their named entities, all others stay. -/
def xmlEscapeChar (c : Char) : List Char :=
  if c = '&' then "&amp;".data
  else if c = '<' then "&lt;".data
  else if c = '>' then "&gt;".data
  else if c = '"' then "&quot;".data
  else if c = '\'' then "&apos;".data
  else [c]

/-- Concrete YAML oracle for the ignore-scoping scenario: the block d parses
to a mapping with only a description. -/
def ypDemo : YamlParse := fun y =>
  if y = "d" then .ok (some ⟨none, some "demo", none⟩) else .ok none

/-- Listing of a skill directory holding one SKILL.md file. -/
def demoSkillDir : FNodes :=
  .cons (.file "SKILL.md" (.ok "---\nd\n---\nb")) .nil

/-- Listing of the subdirectory bar: a .gitignore with the single rule foo,
and a skill directory foo that the rule should suppress. -/
def demoBarEntries : FNodes :=
  .cons (.file ".gitignore" (.ok "foo\n")) (.cons (.dir "foo" demoSkillDir) .nil)

/-- Listing of the scanned root: the subdirectory bar and a sibling skill
directory foo that the nested rule must not suppress. -/
def demoRootEntries : FNodes :=
  .cons (.dir "bar" demoBarEntries) (.cons (.dir "foo" demoSkillDir) .nil)

end SkillsLoader

deriving instance DecidableEq for Except

namespace SkillsLoader

/-- Concrete filesystem oracle for witnesses over single-file skill paths:
every path exists as a readable markdown skill file, and symlink resolution
is the identity, so distinct paths denote distinct files. -/
def fsTwinNames : FS :=
  ⟨fun _ => true, fun _ => .ok .file, fun _ => .ok "---\nd\n---\nb", fun p => .ok p,
   fun _ => .nil⟩

/-- Concrete filesystem oracle for witnesses where the two demo paths are two
routes to one underlying file. -/
def fsSharedFile : FS :=
  ⟨fun _ => true, fun _ => .ok .file, fun _ => .ok "---\nd\n---\nb",
   fun _ => .ok "/real/x.md", fun _ => .nil⟩

/-- Skill produced by fsTwinNames at one demo path. -/
def skillTwin1 : Skill := ⟨"n", "demo", "/u/n/SKILL.md", "/u/n", "path", false⟩

/-- Skill produced by fsTwinNames at the other demo path, clashing on name. -/
def skillTwin2 : Skill := ⟨"n", "demo", "/v/n/SKILL.md", "/v/n", "path", false⟩

/-- Concrete filesystem oracle on which every path is missing and every
fallible primitive throws. -/
def fsMissing : FS :=
  ⟨fun _ => false, fun _ => .error "stat failed", fun _ => .error "read failed",
   fun _ => .error "realpath failed", fun _ => .nil⟩

/-- A visible skill whose text fields hold characters that XML escaping must
rewrite. -/
def skillOn : Skill := ⟨"a&b", "d<e", "/r/a&b/SKILL.md", "/r/a&b", "path", false⟩

/-- A skill excluded from the prompt by disableModelInvocation. -/
def skillOff : Skill := ⟨"off", "d", "/r/off/SKILL.md", "/r/off", "path", true⟩

/-! Helper lemmas about the character-list string operations. -/

theorem isPrefixOf_eq_true_iff (a b : List Char) :
    a.isPrefixOf b = true ↔ ∃ t, b = a ++ t := by
  induction a generalizing b with
  | nil => simp [List.isPrefixOf]
  | cons x xs ih =>
    cases b with
    | nil => simp [List.isPrefixOf]
    | cons y ys =>
      simp only [List.isPrefixOf, Bool.and_eq_true, beq_iff_eq, ih, List.cons_append,
        List.cons.injEq]
      constructor
      · rintro ⟨rfl, t, rfl⟩
        exact ⟨t, rfl, rfl⟩
      · rintro ⟨t, rfl, rfl⟩
        exact ⟨rfl, t, rfl⟩

theorem hasSeq_iff (n l : List Char) :
    hasSeq n l = true ↔ ∃ a b, l = a ++ n ++ b := by
  induction l with
  | nil =>
    simp only [hasSeq, isPrefixOf_eq_true_iff]
    constructor
    · rintro ⟨t, ht⟩
      exact ⟨[], t, by simpa using ht⟩
    · rintro ⟨a, b, h⟩
      have h' := h.symm
      simp only [List.append_eq_nil] at h'
      exact ⟨b, by simp [h'.1.2, h'.2]⟩
  | cons c t ih =>
    simp only [hasSeq, Bool.or_eq_true, isPrefixOf_eq_true_iff, ih]
    constructor
    · rintro (⟨s, hs⟩ | ⟨a, b, hab⟩)
      · exact ⟨[], s, by simpa using hs⟩
      · exact ⟨c :: a, b, by simp [hab]⟩
    · rintro ⟨a, b, hab⟩
      cases a with
      | nil => exact Or.inl ⟨b, by simpa using hab⟩
      | cons a0 as =>
        simp only [List.cons_append, List.cons.injEq] at hab
        exact Or.inr ⟨as, b, hab.2⟩

theorem indexOfAux_eq_none (n l : List Char) (i : Nat) (h : hasSeq n l = false) :
    indexOfAux n l i = none := by
  induction l generalizing i with
  | nil =>
    simp only [hasSeq] at h
    simp [indexOfAux, h]
  | cons c t ih =>
    simp only [hasSeq, Bool.or_eq_false_iff] at h
    simp [indexOfAux, h.1, ih _ h.2]

theorem indexOfAux_isSome (n l : List Char) (i : Nat) :
    (indexOfAux n l i).isSome = hasSeq n l := by
  induction l generalizing i with
  | nil =>
    by_cases h : n.isPrefixOf ([] : List Char) = true <;> simp [indexOfAux, hasSeq, h]
  | cons c t ih =>
    by_cases h : n.isPrefixOf (c :: t) = true <;> simp [indexOfAux, hasSeq, h, ih]

theorem jsIncludes_eq_hasSeq (s sub : String) :
    jsIncludes s sub = hasSeq sub.data s.data := by
  simp [jsIncludes, jsIndexOfFrom, indexOfAux_isSome]

theorem isPrefixOf_singleton_iff (c : Char) (l : List Char) :
    ([c].isPrefixOf l) = true ↔ l.head? = some c := by
  cases l with
  | nil => simp [List.isPrefixOf]
  | cons d t =>
    show ((c == d) && List.isPrefixOf [] t) = true ↔ _
    simp only [List.isPrefixOf, Bool.and_true, beq_iff_eq, List.head?, Option.some.injEq]
    exact eq_comm

theorem jsStartsWith_dash_iff (s : String) :
    jsStartsWith s "-" = true ↔ s.data.head? = some '-' := by
  unfold jsStartsWith
  exact isPrefixOf_singleton_iff '-' s.data

theorem isSuffixOf_eq_true_iff (a b : List Char) :
    a.isSuffixOf b = true ↔ ∃ t, b = t ++ a := by
  simp only [List.isSuffixOf, isPrefixOf_eq_true_iff]
  constructor
  · rintro ⟨t, ht⟩
    refine ⟨t.reverse, ?_⟩
    have := congrArg List.reverse ht
    simpa using this
  · rintro ⟨t, rfl⟩
    exact ⟨t.reverse, by simp⟩

theorem jsEndsWith_dash_iff (s : String) :
    jsEndsWith s "-" = true ↔ s.data.getLast? = some '-' := by
  show (List.isSuffixOf ['-'] s.data) = true ↔ _
  rw [isSuffixOf_eq_true_iff]
  constructor
  · rintro ⟨t, ht⟩
    rw [ht]
    simp
  · intro h
    rcases List.getLast?_eq_some_iff.mp h with ⟨t, ht⟩
    exact ⟨t, ht⟩

theorem regexNameTest_false_iff (s : String) :
    regexNameTest s = false ↔ (s.data = [] ∨ ∃ c ∈ s.data, isNameChar c = false) := by
  simp only [regexNameTest, Bool.and_eq_false_iff, Bool.not_eq_false', List.isEmpty_iff,
    List.all_eq_false]
  constructor
  · rintro (h | ⟨c, hc, hne⟩)
    · exact Or.inl h
    · exact Or.inr ⟨c, hc, by simpa using hne⟩
  · rintro (h | ⟨c, hc, hne⟩)
    · exact Or.inl h
    · exact Or.inr ⟨c, hc, by simpa using hne⟩

/-- C4 counterexample: at name and parentDirName both empty, validateName
returns the invalid-characters error although the name equals the directory
name, its length is at most 64, it contains no character outside the class,
does not start or end with a hyphen and does not contain a double hyphen; so
the listed conditions are not exactly the error conditions. -/
theorem validateName_claim_counterexample :
    validateName "" "" ≠ [] ∧
    ¬(("" : String) ≠ "" ∨ 64 < ("" : String).data.length ∨
      (∃ c ∈ ("" : String).data, isNameChar c = false) ∨
      ("" : String).data.head? = some '-' ∨ ("" : String).data.getLast? = some '-' ∨
      hasSeq "--".data ("" : String).data = true) := by
  refine ⟨by decide, ?_⟩
  rintro (h | h | h | h | h | h) <;> simp_all <;> revert h <;> decide

/-- C4 (amended): validateName returns an error for each of exactly these
conditions: the name differs from the parent directory name; the name length
exceeds 64; the name is empty or contains a character outside the class of
lowercase letters, digits and hyphen; the name starts or ends with a hyphen;
the name contains a double hyphen; and no error otherwise. -/
theorem validateName_characterization (name parentDirName : String) :
    validateName name parentDirName =
      (if name = parentDirName then []
       else ["name \"" ++ name ++ "\" does not match parent directory \"" ++
              parentDirName ++ "\""]) ++
      (if 64 < name.data.length then
        ["name exceeds 64 characters (" ++ toString name.data.length ++ ")"]
       else []) ++
      (if name.data = [] ∨ (∃ c ∈ name.data, isNameChar c = false) then
        ["name contains invalid characters (must be lowercase a-z, 0-9, hyphens only)"]
       else []) ++
      (if name.data.head? = some '-' ∨ name.data.getLast? = some '-' then
        ["name must not start or end with a hyphen"]
       else []) ++
      (if hasSeq "--".data name.data = true then
        ["name must not contain consecutive hyphens"]
       else []) := by
  have h3 := regexNameTest_false_iff name
  have h4s := jsStartsWith_dash_iff name
  have h4e := jsEndsWith_dash_iff name
  have h5 := jsIncludes_eq_hasSeq name "--"
  unfold validateName MAX_NAME_LENGTH
  by_cases h1 : name = parentDirName <;>
    by_cases h2 : 64 < name.data.length <;>
      by_cases hr : regexNameTest name = false <;>
        by_cases hs : jsStartsWith name "-" = true <;>
          by_cases he : jsEndsWith name "-" = true <;>
            by_cases hi : jsIncludes name "--" = true <;>
              simp_all [gt_iff_lt, Nat.not_lt]

theorem isPrefixOf_append_self (a t : List Char) : a.isPrefixOf (a ++ t) = true := by
  rw [isPrefixOf_eq_true_iff]
  exact ⟨t, rfl⟩

theorem isPrefixOf_of_append (a b c : List Char) (h : a.isPrefixOf (b ++ c) = true)
    (hlen : a.length ≤ b.length) : a.isPrefixOf b = true := by
  rw [isPrefixOf_eq_true_iff] at h ⊢
  rcases h with ⟨t, ht⟩
  have h2 := congrArg (List.take a.length) ht
  rw [List.take_append_of_le_length hlen, List.take_left] at h2
  refine ⟨b.drop a.length, ?_⟩
  conv_lhs => rw [← List.take_append_drop a.length b]
  rw [h2]

theorem hasSeq_of_prefixOf_drop (n v : List Char) (p : Nat)
    (h : n.isPrefixOf (v.drop p) = true) : hasSeq n v = true := by
  induction p generalizing v with
  | zero =>
    cases v with
    | nil => exact h
    | cons c t => simp only [List.drop_zero] at h; simp [hasSeq, h]
  | succ p ih =>
    cases v with
    | nil => exact h
    | cons c t =>
      have := ih t (by simpa using h)
      simp [hasSeq, this]

theorem indexOfAux_append_match (n u w : List Char) (i : Nat)
    (hw : n.isPrefixOf w = true)
    (hno : ∀ p, p < u.length → n.isPrefixOf ((u ++ w).drop p) = false) :
    indexOfAux n (u ++ w) i = some (i + u.length) := by
  induction u generalizing i with
  | nil =>
    cases w with
    | nil => simp only [List.nil_append, List.length_nil, Nat.add_zero]; simp [indexOfAux, hw]
    | cons c t => simp only [List.nil_append, List.length_nil, Nat.add_zero]; simp [indexOfAux, hw]
  | cons x xs ih =>
    have h0 := hno 0 (by simp)
    simp only [List.drop_zero] at h0
    show indexOfAux n (x :: (xs ++ w)) i = _
    rw [indexOfAux]
    rw [if_neg (by simp_all)]
    have hrec := ih (i + 1) (fun p hp => by
      have := hno (p + 1) (by simpa using Nat.succ_lt_succ hp)
      simpa using this)
    rw [hrec]
    simp only [List.length_cons]
    congr 1
    omega

/-- C5: extractFrontmatter first normalizes line endings to the newline
character; if the normalized text does not begin with the three-dash marker,
or begins with it but contains no occurrence of a newline followed by three
dashes after the opening marker, it returns no YAML block with the whole
normalized text as body; otherwise the YAML block is exactly the text
strictly between the opening marker line and the closing newline-dash
delimiter, and the body is everything after the closing delimiter trimmed of
leading and trailing whitespace. -/
theorem extractFrontmatter_spec (content : List Char) :
    (("---".data.isPrefixOf (normalizeNewlinesCore content)) = false →
      extractFrontmatterCore content = (none, normalizeNewlinesCore content)) ∧
    (hasSeq "\n---".data ((normalizeNewlinesCore content).drop 3) = false →
      extractFrontmatterCore content = (none, normalizeNewlinesCore content)) ∧
    (∀ yaml rest,
      normalizeNewlinesCore content = "---\n".data ++ yaml ++ "\n---".data ++ rest →
      hasSeq "\n---".data ('\n' :: (yaml ++ ['\n', '-', '-'])) = false →
      extractFrontmatterCore content = (some yaml, jsTrimCore rest)) := by
  refine ⟨?_, ?_, ?_⟩
  · intro h
    unfold extractFrontmatterCore
    simp [h]
  · intro h
    unfold extractFrontmatterCore
    by_cases hp : ("---".data.isPrefixOf (normalizeNewlinesCore content)) = true
    · simp [hp, jsIndexOfFrom, indexOfAux_eq_none _ _ _ h]
    · have hp' : ("---".data.isPrefixOf (normalizeNewlinesCore content)) = false := by
        rwa [Bool.not_eq_true] at hp
      simp [hp']
  · intro yaml rest hdecomp hno
    have hdrop : (normalizeNewlinesCore content).drop 3
        = ('\n' :: yaml) ++ ("\n---".data ++ rest) := by
      rw [hdecomp]
      show '\n' :: ((yaml ++ "\n---".data) ++ rest) = '\n' :: (yaml ++ ("\n---".data ++ rest))
      rw [List.append_assoc]
    have hw : ("\n---".data).isPrefixOf ("\n---".data ++ rest) = true :=
      isPrefixOf_append_self _ _
    have hno' : ∀ p, p < ('\n' :: yaml).length →
        ("\n---".data).isPrefixOf ((('\n' :: yaml) ++ ("\n---".data ++ rest)).drop p) = false := by
      intro p hp
      by_contra hcon
      have hcon' : ("\n---".data).isPrefixOf ((('\n' :: yaml) ++ ("\n---".data ++ rest)).drop p) = true := by
        simpa using hcon
      have hdropp : (('\n' :: yaml) ++ ("\n---".data ++ rest)).drop p
          = (('\n' :: yaml).drop p) ++ ("\n---".data ++ rest) := by
        rw [List.drop_append_eq_append_drop, Nat.sub_eq_zero_of_le (Nat.le_of_lt hp),
          List.drop_zero]
      have hv : (('\n' :: yaml).drop p) ++ ("\n---".data ++ rest)
          = ((('\n' :: yaml).drop p) ++ ['\n', '-', '-']) ++ ('-' :: rest) := by
        rw [List.append_assoc]
        rfl
      have hple : p ≤ yaml.length := by
        simpa [Nat.lt_succ_iff] using hp
      have hlen : ("\n---".data).length ≤ ((('\n' :: yaml).drop p) ++ ['\n', '-', '-']).length := by
        have h4 : ("\n---".data).length = 4 := rfl
        rw [h4]
        simp only [List.length_append, List.length_drop, List.length_cons, List.length_nil]
        omega
      rw [hdropp, hv] at hcon'
      have hpref2 := isPrefixOf_of_append _ _ _ hcon' hlen
      have hdp2 : (('\n' :: yaml).drop p) ++ ['\n', '-', '-']
          = (('\n' :: yaml) ++ ['\n', '-', '-']).drop p := by
        rw [List.drop_append_eq_append_drop, Nat.sub_eq_zero_of_le (Nat.le_of_lt hp),
          List.drop_zero]
      rw [hdp2] at hpref2
      have hseq := hasSeq_of_prefixOf_drop _ _ _ hpref2
      have hform : (('\n' :: yaml) ++ ['\n', '-', '-']) = '\n' :: (yaml ++ ['\n', '-', '-']) := rfl
      rw [hform] at hseq
      simp [hseq] at hno
    have hidx : jsIndexOfFrom "\n---".data (normalizeNewlinesCore content) 3
        = some (3 + ('\n' :: yaml).length) := by
      unfold jsIndexOfFrom
      rw [hdrop]
      exact indexOfAux_append_match _ _ _ _ hw hno'
    have hpre : ("---".data).isPrefixOf (normalizeNewlinesCore content) = true := by
      rw [isPrefixOf_eq_true_iff]
      exact ⟨'\n' :: ((yaml ++ "\n---".data) ++ rest), by rw [hdecomp]; rfl⟩
    have hlen_eq : 3 + ('\n' :: yaml).length = ("---\n".data ++ yaml).length := by
      have h4 : ("---\n".data).length = 4 := rfl
      simp only [List.length_cons, List.length_append, h4]
      omega
    have htake0 : (normalizeNewlinesCore content).take (("---\n".data ++ yaml).length)
        = "---\n".data ++ yaml := by
      rw [hdecomp]
      rw [show ("---\n".data ++ yaml ++ "\n---".data ++ rest)
            = ("---\n".data ++ yaml) ++ ("\n---".data ++ rest) by
          simp [List.append_assoc]]
      exact List.take_left _ _
    have htake : ((normalizeNewlinesCore content).take (3 + ('\n' :: yaml).length)).drop 4
        = yaml := by
      rw [hlen_eq, htake0]
      rw [show (4 : Nat) = ("---\n".data).length from rfl]
      exact List.drop_left _ _
    have hlen_eq2 : 3 + ('\n' :: yaml).length + 4
        = (("---\n".data ++ yaml) ++ "\n---".data).length := by
      have h4 : ("---\n".data).length = 4 := rfl
      have h4' : ("\n---".data).length = 4 := rfl
      simp only [List.length_cons, List.length_append, h4, h4']
      omega
    have hdrop2 : (normalizeNewlinesCore content).drop (3 + ('\n' :: yaml).length + 4)
        = rest := by
      rw [hlen_eq2, hdecomp]
      exact List.drop_left _ _
    unfold extractFrontmatterCore
    simp only [hpre, if_true, hidx, htake, hdrop2]

/-- C5 witness: the positive branch of the specification evaluated at a
concrete document with surrounding whitespace in the body. -/
theorem extractFrontmatter_spec_witness :
    extractFrontmatterCore "---\na: b\n---\n body ".data = (some "a: b".data, "body".data) := by
  have h := (extractFrontmatter_spec "---\na: b\n---\n body ".data).2.2 "a: b".data "\n body ".data
    (by decide) (by decide)
  rw [h]
  decide

/-- C2: a skill whose resolved file identity has already been recorded is
dropped silently by addSkills, leaving the whole loader state unchanged, with
no collision or other diagnostic and before any name comparison; hence a
loadSkills call over two markdown file paths that resolve to the same real
file keeps exactly one skill and emits no collision diagnostic. -/
theorem realpath_dedup_silent :
    (∀ (rp : String → Except String String) (st : LoaderState) (skill : Skill),
      st.realPathSet.contains (realpathOf rp skill.filePath) = true →
      addSkillOne rp st skill = st) ∧
    (∀ (fsys : FS) (yp : YamlParse) (ignF : IgnoresPred) (cwd p1 p2 : String)
      (s1 s2 : Skill) (d1 d2 : List ResourceDiagnostic) (q : String),
      isAbsolutePath p1 = true → isAbsolutePath p2 = true →
      fsys.existsSync p1 = true → fsys.existsSync p2 = true →
      fsys.statSync p1 = .ok .file → fsys.statSync p2 = .ok .file →
      jsEndsWith p1 ".md" = true → jsEndsWith p2 ".md" = true →
      loadSkillFromFile (fsys.readFileSync p1) yp p1 "path" = (some s1, d1) →
      loadSkillFromFile (fsys.readFileSync p2) yp p2 "path" = (some s2, d2) →
      fsys.realpathSync s1.filePath = .ok q →
      fsys.realpathSync s2.filePath = .ok q →
      loadSkillsM fsys yp ignF ⟨cwd, [p1, p2]⟩ = .ok ⟨[s1], d1 ++ d2⟩) := by
  constructor
  · intro rp st skill h
    have h' : realpathOf rp skill.filePath ∈ st.realPathSet := by simpa using h
    unfold addSkillOne
    simp [h']
  · intro fsys yp ignF cwd p1 p2 s1 s2 d1 d2 q ha1 ha2 he1 he2 hs1 hs2 hm1 hm2 hf1 hf2 hr1 hr2
    have step1 : processPathM fsys yp ignF cwd initState p1
        = .ok ⟨[(s1.name, s1)], [q], d1, []⟩ := by
      unfold processPathM
      simp [ha1, he1, Except.tryCatch, hs1, hm1, hf1, addSkills, addSkillOne, realpathOf,
        hr1, initState, bind, Except.bind]
    have step2 : processPathM fsys yp ignF cwd ⟨[(s1.name, s1)], [q], d1, []⟩ p2
        = .ok ⟨[(s1.name, s1)], [q], d1 ++ d2, []⟩ := by
      unfold processPathM
      simp [ha2, he2, Except.tryCatch, hs2, hm2, hf2, addSkills, addSkillOne, realpathOf,
        hr2, bind, Except.bind]
    unfold loadSkillsM loadSkillsLoop loadSkillsLoop loadSkillsLoop
    simp [step1, step2, bind, Except.bind]

/-- C2 witness: two absolute markdown paths reaching the same real file give
one kept skill and no diagnostic at all. -/
theorem realpath_dedup_silent_witness :
    loadSkillsM fsSharedFile ypDemo matcherIgnores ⟨"/", ["/u/n/SKILL.md", "/v/n/SKILL.md"]⟩
      = .ok ⟨[skillTwin1], []⟩ := by
  have h := realpath_dedup_silent.2 fsSharedFile ypDemo matcherIgnores "/"
    "/u/n/SKILL.md" "/v/n/SKILL.md" skillTwin1 skillTwin2 [] [] "/real/x.md"
    rfl rfl rfl rfl rfl rfl (by decide) (by decide) (by decide) (by decide) rfl rfl
  simpa using h

/-- C10: when a skill is discarded because of a name collision, the loader
state keeps its skill map and its set of seen resolved identities unchanged,
so the identity of the losing file is not recorded; a later occurrence of a
skill from the same file is therefore compared by name again, yielding a
second collision diagnostic while the name is still taken, and it is kept
whenever the name is free and the identity is still unseen. -/
theorem collision_identity_not_recorded
    (rp : String → Except String String) (st : LoaderState) (skill ex : Skill)
    (h1 : st.realPathSet.contains (realpathOf rp skill.filePath) = false)
    (h2 : List.lookup skill.name st.skillMap = some ex) :
    (addSkillOne rp st skill).realPathSet = st.realPathSet ∧
    (addSkillOne rp st skill).skillMap = st.skillMap ∧
    (addSkillOne rp (addSkillOne rp st skill) skill).collisionDiagnostics
      = st.collisionDiagnostics ++ [collisionDiag ex skill, collisionDiag ex skill] ∧
    (∀ st2 : LoaderState,
      st2.realPathSet.contains (realpathOf rp skill.filePath) = false →
      List.lookup skill.name st2.skillMap = none →
      (addSkillOne rp st2 skill).skillMap = st2.skillMap ++ [(skill.name, skill)]) := by
  have h1' : realpathOf rp skill.filePath ∉ st.realPathSet := by simpa using h1
  refine ⟨?_, ?_, ?_, ?_⟩
  · unfold addSkillOne
    simp [h1', h2]
  · unfold addSkillOne
    simp [h1', h2]
  · unfold addSkillOne
    simp [h1', h2]
  · intro st2 g1 g2
    have g1' : realpathOf rp skill.filePath ∉ st2.realPathSet := by simpa using g1
    unfold addSkillOne
    simp [g1', g2]

/-- C10 witness: the collision step at a concrete clashing state records no
identity, repeats the collision, and a free name is kept. -/
theorem collision_identity_not_recorded_witness :
    (addSkillOne (fun p => .ok p) ⟨[("n", skillTwin1)], ["/u/n/SKILL.md"], [], []⟩
        skillTwin2).realPathSet = ["/u/n/SKILL.md"] ∧
    (addSkillOne (fun p => .ok p) ⟨[("n", skillTwin1)], ["/u/n/SKILL.md"], [], []⟩
        skillTwin2).skillMap = [("n", skillTwin1)] ∧
    (addSkillOne (fun p => .ok p)
        (addSkillOne (fun p => .ok p) ⟨[("n", skillTwin1)], ["/u/n/SKILL.md"], [], []⟩ skillTwin2)
        skillTwin2).collisionDiagnostics
      = [] ++ [collisionDiag skillTwin1 skillTwin2, collisionDiag skillTwin1 skillTwin2] ∧
    (∀ st2 : LoaderState,
      st2.realPathSet.contains (realpathOf (fun p => .ok p) skillTwin2.filePath) = false →
      List.lookup skillTwin2.name st2.skillMap = none →
      (addSkillOne (fun p => .ok p) st2 skillTwin2).skillMap
        = st2.skillMap ++ [(skillTwin2.name, skillTwin2)]) :=
  collision_identity_not_recorded (fun p => .ok p)
    ⟨[("n", skillTwin1)], ["/u/n/SKILL.md"], [], []⟩ skillTwin2 skillTwin1
    (by decide) (by decide)

theorem lookup_none_not_mem_keys {β : Type} (k : String) (m : List (String × β))
    (h : List.lookup k m = none) : k ∉ m.map Prod.fst := by
  induction m with
  | nil => simp
  | cons a t ih =>
    simp only [List.lookup] at h
    split at h
    · exact absurd h (by simp)
    · rename_i hne
      simp only [List.map_cons, List.mem_cons]
      rintro (rfl | hm)
      · simp at hne
      · exact ih h hm

theorem addSkillOne_shape (rp : String → Except String String) (st : LoaderState)
    (skill : Skill) :
    addSkillOne rp st skill = st ∨
    (∃ ex, addSkillOne rp st skill
      = { st with collisionDiagnostics := st.collisionDiagnostics ++ [collisionDiag ex skill] }) ∨
    (List.lookup skill.name st.skillMap = none ∧
      addSkillOne rp st skill
        = { st with skillMap := st.skillMap ++ [(skill.name, skill)],
                    realPathSet := st.realPathSet ++ [realpathOf rp skill.filePath] }) := by
  unfold addSkillOne
  by_cases hc : realpathOf rp skill.filePath ∈ st.realPathSet
  · left
    simp [hc]
  · rcases hl : List.lookup skill.name st.skillMap with _ | ex
    · right; right
      refine ⟨rfl, ?_⟩
      simp [hc, hl]
    · right; left
      refine ⟨ex, ?_⟩
      simp [hc, hl]

theorem addSkillOne_keys_inv (rp : String → Except String String) (st : LoaderState)
    (skill : Skill)
    (hnd : (st.skillMap.map Prod.fst).Nodup)
    (hnm : ∀ p ∈ st.skillMap, p.1 = p.2.name) :
    ((addSkillOne rp st skill).skillMap.map Prod.fst).Nodup ∧
    (∀ p ∈ (addSkillOne rp st skill).skillMap, p.1 = p.2.name) := by
  rcases addSkillOne_shape rp st skill with h | ⟨ex, h⟩ | ⟨hl, h⟩
  · rw [h]; exact ⟨hnd, hnm⟩
  · rw [h]; exact ⟨hnd, hnm⟩
  · rw [h]
    constructor
    · simp only [List.map_append, List.map_cons, List.map_nil]
      rw [List.nodup_append]
      refine ⟨hnd, by simp, ?_⟩
      intro a ha hb
      simp only [List.mem_cons, List.not_mem_nil, or_false] at hb
      subst hb
      exact lookup_none_not_mem_keys _ _ hl ha
    · intro p hp
      rcases List.mem_append.mp hp with hp | hp
      · exact hnm p hp
      · simp only [List.mem_cons, List.not_mem_nil, or_false] at hp
        subst hp
        rfl

theorem foldl_addSkillOne_keys_inv (rp : String → Except String String)
    (skills : List Skill) :
    ∀ st : LoaderState,
      (st.skillMap.map Prod.fst).Nodup → (∀ p ∈ st.skillMap, p.1 = p.2.name) →
      (((skills.foldl (addSkillOne rp) st).skillMap.map Prod.fst).Nodup ∧
       ∀ p ∈ (skills.foldl (addSkillOne rp) st).skillMap, p.1 = p.2.name) := by
  induction skills with
  | nil => intro st h1 h2; exact ⟨h1, h2⟩
  | cons s rest ih =>
    intro st h1 h2
    have h := addSkillOne_keys_inv rp st s h1 h2
    exact ih _ h.1 h.2

theorem addSkills_keys_inv (rp : String → Except String String) (st : LoaderState)
    (result : LoadSkillsResult)
    (hnd : (st.skillMap.map Prod.fst).Nodup)
    (hnm : ∀ p ∈ st.skillMap, p.1 = p.2.name) :
    (((addSkills rp st result).skillMap.map Prod.fst).Nodup ∧
     ∀ p ∈ (addSkills rp st result).skillMap, p.1 = p.2.name) := by
  unfold addSkills
  exact foldl_addSkillOne_keys_inv rp result.skills _ hnd hnm

theorem processPathM_cases (fsys : FS) (yp : YamlParse) (ignF : IgnoresPred)
    (cwd : String) (st : LoaderState) (p : String) (st2 : LoaderState)
    (hok : processPathM fsys yp ignF cwd st p = .ok st2) :
    (∃ d, st2 = { st with allDiagnostics := st.allDiagnostics ++ d }) ∨
    (∃ tree root1, st2 = addSkills fsys.realpathSync st
      (loadSkillsFromDirInternal yp ignF root1 "path" tree true [] root1).1) ∨
    (∃ skill d fp, loadSkillFromFile (fsys.readFileSync fp) yp fp "path" = (some skill, d) ∧
      st2 = addSkills fsys.realpathSync st ⟨[skill], d⟩) := by
  unfold processPathM at hok
  by_cases hex : fsys.existsSync (if isAbsolutePath p = true then p else resolvePath cwd p) = false
  · simp only [hex, if_true] at hok
    left
    refine ⟨[warningDiag "skill path does not exist"
      (if isAbsolutePath p = true then p else resolvePath cwd p)], ?_⟩
    simp only [Except.ok.injEq] at hok
    rw [← hok]
    rfl
  · have hex2 : fsys.existsSync (if isAbsolutePath p = true then p else resolvePath cwd p)
        = true := by
      revert hex
      cases fsys.existsSync (if isAbsolutePath p = true then p else resolvePath cwd p) <;> simp
    simp only [hex2, Bool.true_eq_false, if_false] at hok
    rw [Except.tryCatch.eq_def] at hok
    rcases hstat : fsys.statSync (if isAbsolutePath p = true then p else resolvePath cwd p)
      with e | ft
    · rw [hstat] at hok
      simp only [bind, Except.bind] at hok
      left
      refine ⟨[warningDiag e (if isAbsolutePath p = true then p else resolvePath cwd p)], ?_⟩
      simp only [Except.ok.injEq] at hok
      rw [← hok]
      rfl
    · rw [hstat] at hok
      simp only [bind, Except.bind] at hok
      cases ft with
      | dir =>
        right; left
        simp only [Except.ok.injEq] at hok
        exact ⟨_, _, hok.symm⟩
      | file =>
        by_cases hmd : jsEndsWith (if isAbsolutePath p = true then p else resolvePath cwd p)
            ".md" = true
        · rw [hmd] at hok
          simp only [if_true] at hok
          rcases hload : (loadSkillFromFile
              (fsys.readFileSync (if isAbsolutePath p = true then p else resolvePath cwd p))
              yp (if isAbsolutePath p = true then p else resolvePath cwd p) "path")
            with ⟨sk, d⟩
          rw [hload] at hok
          cases sk with
          | some skill =>
            right; right
            simp only [Except.ok.injEq] at hok
            exact ⟨skill, d, _, hload, hok.symm⟩
          | none =>
            left
            simp only [Except.ok.injEq] at hok
            exact ⟨d, hok.symm⟩
        · have hmd2 : jsEndsWith (if isAbsolutePath p = true then p else resolvePath cwd p)
              ".md" = false := by
            revert hmd
            cases jsEndsWith (if isAbsolutePath p = true then p else resolvePath cwd p) ".md" <;>
              simp
          rw [hmd2] at hok
          simp only [Bool.false_eq_true, if_false, Except.ok.injEq] at hok
          left
          refine ⟨[], ?_⟩
          rw [← hok]
          cases st
          simp
      | other =>
        simp only [Except.ok.injEq] at hok
        left
        refine ⟨[], ?_⟩
        rw [← hok]
        cases st
        simp

theorem loadSkillsLoop_keys_inv (fsys : FS) (yp : YamlParse) (ignF : IgnoresPred)
    (cwd : String) (paths : List String) :
    ∀ st st2 : LoaderState, loadSkillsLoop fsys yp ignF cwd st paths = .ok st2 →
      (st.skillMap.map Prod.fst).Nodup → (∀ p ∈ st.skillMap, p.1 = p.2.name) →
      ((st2.skillMap.map Prod.fst).Nodup ∧ ∀ p ∈ st2.skillMap, p.1 = p.2.name) := by
  induction paths with
  | nil =>
    intro st st2 h h1 h2
    unfold loadSkillsLoop at h
    simp only [Except.ok.injEq] at h
    subst h
    exact ⟨h1, h2⟩
  | cons p ps ih =>
    intro st st2 h h1 h2
    unfold loadSkillsLoop at h
    rcases hstep : processPathM fsys yp ignF cwd st p with e | st3
    · rw [hstep] at h
      simp [bind, Except.bind] at h
    · rw [hstep] at h
      simp only [bind, Except.bind] at h
      rcases processPathM_cases _ _ _ _ _ _ _ hstep with ⟨d, rfl⟩ | ⟨tree, root1, rfl⟩ |
        ⟨skill, d, fp, _, rfl⟩
      · exact ih _ _ h h1 h2
      · have hi := addSkills_keys_inv fsys.realpathSync st
          (loadSkillsFromDirInternal yp ignF root1 "path" tree true [] root1).1 h1 h2
        exact ih _ _ h hi.1 hi.2
      · have hi := addSkills_keys_inv fsys.realpathSync st ⟨[skill], d⟩ h1 h2
        exact ih _ _ h hi.1 hi.2

/-- C1: in every loadSkills result no two returned skills share a name; and
whenever a skill with a new resolved identity clashes on name with an
already-recorded skill, the kept map and identity set and content
diagnostics are unchanged and exactly one collision diagnostic is appended,
whose winner path is the file path of the kept skill and whose loser path is
the file path of the discarded skill. -/
theorem loadSkills_names_unique (fsys : FS) (yp : YamlParse) (ignF : IgnoresPred)
    (opts : LoadSkillsOptions) (r : LoadSkillsResult)
    (hr : loadSkillsM fsys yp ignF opts = .ok r) :
    r.skills.Pairwise (fun a b => a.name ≠ b.name) ∧
    (∀ (rp : String → Except String String) (st : LoaderState) (skill ex : Skill),
      st.realPathSet.contains (realpathOf rp skill.filePath) = false →
      List.lookup skill.name st.skillMap = some ex →
      (addSkillOne rp st skill).skillMap = st.skillMap ∧
      (addSkillOne rp st skill).realPathSet = st.realPathSet ∧
      (addSkillOne rp st skill).allDiagnostics = st.allDiagnostics ∧
      (addSkillOne rp st skill).collisionDiagnostics
        = st.collisionDiagnostics ++ [collisionDiag ex skill]) := by
  constructor
  · unfold loadSkillsM at hr
    rcases hloop : loadSkillsLoop fsys yp ignF opts.cwd initState opts.skillPaths with e | st
    · rw [hloop] at hr
      simp [bind, Except.bind] at hr
    · rw [hloop] at hr
      simp only [bind, Except.bind, Except.ok.injEq] at hr
      have hinv := loadSkillsLoop_keys_inv fsys yp ignF opts.cwd opts.skillPaths initState st
        hloop (by simp [initState]) (by simp [initState])
      rw [← hr]
      have hkeys : st.skillMap.map Prod.fst = st.skillMap.map (fun q => q.2.name) :=
        List.map_congr_left hinv.2
      have hnd := hinv.1
      rw [hkeys] at hnd
      have hmm : st.skillMap.map (fun q => q.2.name)
          = (st.skillMap.map Prod.snd).map Skill.name := by
        rw [List.map_map]
        rfl
      rw [hmm] at hnd
      exact (List.pairwise_map).mp hnd
  · intro rp st skill ex h1 h2
    have h1x : realpathOf rp skill.filePath ∉ st.realPathSet := by simpa using h1
    refine ⟨?_, ?_, ?_, ?_⟩ <;> (unfold addSkillOne; simp [h1x, h2])

/-- C1 witness: two markdown files with the same derived name but different
resolved identities give one kept skill, whose singleton list trivially has
pairwise distinct names, and the collision step at the matching concrete
state appends exactly the expected diagnostic. -/
theorem loadSkills_names_unique_witness :
    ([skillTwin1] : List Skill).Pairwise (fun a b => a.name ≠ b.name) ∧
    (addSkillOne (fun p => .ok p) ⟨[("n", skillTwin1)], ["/u/n/SKILL.md"], [], []⟩
        skillTwin2).skillMap = [("n", skillTwin1)] := by
  have h := loadSkills_names_unique fsTwinNames ypDemo matcherIgnores
    ⟨"/", ["/u/n/SKILL.md", "/v/n/SKILL.md"]⟩
    ⟨[skillTwin1], [collisionDiag skillTwin1 skillTwin2]⟩ (by decide)
  refine ⟨by simpa using h.1, ?_⟩
  exact (h.2 (fun p => .ok p) ⟨[("n", skillTwin1)], ["/u/n/SKILL.md"], [], []⟩
    skillTwin2 skillTwin1 (by decide) (by decide)).1

theorem processPathM_isOk (fsys : FS) (yp : YamlParse) (ignF : IgnoresPred)
    (cwd : String) (st : LoaderState) (p : String) :
    ∃ st2, processPathM fsys yp ignF cwd st p = .ok st2 := by
  unfold processPathM
  by_cases hex : fsys.existsSync (if isAbsolutePath p = true then p else resolvePath cwd p) = false
  · refine ⟨pushWarning st "skill path does not exist"
      (if isAbsolutePath p = true then p else resolvePath cwd p), ?_⟩
    simp [hex]
  · have hex2 : fsys.existsSync (if isAbsolutePath p = true then p else resolvePath cwd p)
        = true := by
      revert hex
      cases fsys.existsSync (if isAbsolutePath p = true then p else resolvePath cwd p) <;> simp
    simp only [hex2, Bool.true_eq_false, if_false]
    rw [Except.tryCatch.eq_def]
    rcases hstat : fsys.statSync (if isAbsolutePath p = true then p else resolvePath cwd p)
      with e | ft
    · simp only [bind, Except.bind]
      exact ⟨_, rfl⟩
    · simp only [bind, Except.bind]
      cases ft with
      | dir => exact ⟨_, rfl⟩
      | file =>
        by_cases hmd : jsEndsWith (if isAbsolutePath p = true then p else resolvePath cwd p)
            ".md" = true
        · simp only [hmd, if_true]
          rcases hload : (loadSkillFromFile
              (fsys.readFileSync (if isAbsolutePath p = true then p else resolvePath cwd p))
              yp (if isAbsolutePath p = true then p else resolvePath cwd p) "path")
            with ⟨sk, d⟩
          cases sk with
          | some skill => exact ⟨_, rfl⟩
          | none => exact ⟨_, rfl⟩
        · have hmd2 : jsEndsWith (if isAbsolutePath p = true then p else resolvePath cwd p)
              ".md" = false := by
            revert hmd
            cases jsEndsWith (if isAbsolutePath p = true then p else resolvePath cwd p) ".md" <;>
              simp
          simp only [hmd2, Bool.false_eq_true, if_false]
          exact ⟨_, rfl⟩
      | other => exact ⟨_, rfl⟩

theorem loadSkillsLoop_isOk (fsys : FS) (yp : YamlParse) (ignF : IgnoresPred)
    (cwd : String) (paths : List String) :
    ∀ st : LoaderState, ∃ st2, loadSkillsLoop fsys yp ignF cwd st paths = .ok st2 := by
  induction paths with
  | nil => intro st; exact ⟨st, rfl⟩
  | cons p ps ih =>
    intro st
    obtain ⟨st3, hst3⟩ := processPathM_isOk fsys yp ignF cwd st p
    obtain ⟨st2, hst2⟩ := ih st3
    refine ⟨st2, ?_⟩
    unfold loadSkillsLoop
    rw [hst3]
    simpa [bind, Except.bind] using hst2

theorem addSkillOne_diagPrefix (rp : String → Except String String) (d0 : List ResourceDiagnostic)
    (st : LoaderState) (skill : Skill) :
    addSkillOne rp { st with allDiagnostics := d0 ++ st.allDiagnostics } skill
      = { addSkillOne rp st skill with
          allDiagnostics := d0 ++ (addSkillOne rp st skill).allDiagnostics } := by
  unfold addSkillOne
  by_cases hc : realpathOf rp skill.filePath ∈ st.realPathSet
  · simp [hc]
  · rcases hl : List.lookup skill.name st.skillMap with _ | ex <;> simp [hc, hl]

theorem foldl_addSkillOne_diagPrefix (rp : String → Except String String)
    (d0 : List ResourceDiagnostic) (skills : List Skill) :
    ∀ st : LoaderState,
      skills.foldl (addSkillOne rp) { st with allDiagnostics := d0 ++ st.allDiagnostics }
        = { skills.foldl (addSkillOne rp) st with
            allDiagnostics := d0 ++ (skills.foldl (addSkillOne rp) st).allDiagnostics } := by
  induction skills with
  | nil => intro st; rfl
  | cons s rest ih =>
    intro st
    show rest.foldl (addSkillOne rp)
        (addSkillOne rp { st with allDiagnostics := d0 ++ st.allDiagnostics } s) = _
    rw [addSkillOne_diagPrefix]
    rw [ih (addSkillOne rp st s)]
    rfl

theorem addSkills_diagPrefix (rp : String → Except String String)
    (d0 : List ResourceDiagnostic) (st : LoaderState) (result : LoadSkillsResult) :
    addSkills rp { st with allDiagnostics := d0 ++ st.allDiagnostics } result
      = { addSkills rp st result with
          allDiagnostics := d0 ++ (addSkills rp st result).allDiagnostics } := by
  unfold addSkills
  have hassoc : (d0 ++ st.allDiagnostics) ++ result.diagnostics
      = d0 ++ (st.allDiagnostics ++ result.diagnostics) := by
    rw [List.append_assoc]
  show result.skills.foldl (addSkillOne rp)
      { st with allDiagnostics := (d0 ++ st.allDiagnostics) ++ result.diagnostics } = _
  rw [hassoc]
  exact foldl_addSkillOne_diagPrefix rp d0 result.skills
    { st with allDiagnostics := st.allDiagnostics ++ result.diagnostics }

theorem processPathM_diagPrefix (fsys : FS) (yp : YamlParse) (ignF : IgnoresPred)
    (cwd : String) (d0 : List ResourceDiagnostic) (st : LoaderState) (p : String) :
    processPathM fsys yp ignF cwd { st with allDiagnostics := d0 ++ st.allDiagnostics } p
      = Except.map (fun r : LoaderState =>
          { r with allDiagnostics := d0 ++ r.allDiagnostics })
        (processPathM fsys yp ignF cwd st p) := by
  unfold processPathM
  by_cases hex : fsys.existsSync (if isAbsolutePath p = true then p else resolvePath cwd p) = false
  · simp only [hex, if_true, Except.map]
    unfold pushWarning
    simp [List.append_assoc]
  · have hex2 : fsys.existsSync (if isAbsolutePath p = true then p else resolvePath cwd p)
        = true := by
      revert hex
      cases fsys.existsSync (if isAbsolutePath p = true then p else resolvePath cwd p) <;> simp
    simp only [hex2, Bool.true_eq_false, if_false]
    rw [Except.tryCatch.eq_def, Except.tryCatch.eq_def]
    rcases hstat : fsys.statSync (if isAbsolutePath p = true then p else resolvePath cwd p)
      with e | ft
    · simp only [bind, Except.bind, Except.map]
      unfold pushWarning
      simp [List.append_assoc]
    · simp only [bind, Except.bind]
      cases ft with
      | dir =>
        simp only [Except.map]
        rw [addSkills_diagPrefix]
      | file =>
        by_cases hmd : jsEndsWith (if isAbsolutePath p = true then p else resolvePath cwd p)
            ".md" = true
        · simp only [hmd, if_true]
          rcases hload : (loadSkillFromFile
              (fsys.readFileSync (if isAbsolutePath p = true then p else resolvePath cwd p))
              yp (if isAbsolutePath p = true then p else resolvePath cwd p) "path")
            with ⟨sk, d⟩
          cases sk with
          | some skill =>
            simp only [Except.map]
            rw [addSkills_diagPrefix]
          | none =>
            simp only [Except.map, Except.ok.injEq]
            simp [List.append_assoc]
        · have hmd2 : jsEndsWith (if isAbsolutePath p = true then p else resolvePath cwd p)
              ".md" = false := by
            revert hmd
            cases jsEndsWith (if isAbsolutePath p = true then p else resolvePath cwd p) ".md" <;>
              simp
          simp only [hmd2, Bool.false_eq_true, if_false, Except.map]
      | other => simp only [Except.map]

theorem loadSkillsLoop_diagPrefix (fsys : FS) (yp : YamlParse) (ignF : IgnoresPred)
    (cwd : String) (d0 : List ResourceDiagnostic) (paths : List String) :
    ∀ st : LoaderState,
      loadSkillsLoop fsys yp ignF cwd { st with allDiagnostics := d0 ++ st.allDiagnostics } paths
        = Except.map (fun r : LoaderState =>
            { r with allDiagnostics := d0 ++ r.allDiagnostics })
          (loadSkillsLoop fsys yp ignF cwd st paths) := by
  induction paths with
  | nil => intro st; rfl
  | cons p ps ih =>
    intro st
    show (do
        let st2 ← processPathM fsys yp ignF cwd
          { st with allDiagnostics := d0 ++ st.allDiagnostics } p
        loadSkillsLoop fsys yp ignF cwd st2 ps) = _
    rw [processPathM_diagPrefix]
    obtain ⟨st3, hst3⟩ := processPathM_isOk fsys yp ignF cwd st p
    rw [hst3]
    show loadSkillsLoop fsys yp ignF cwd
        { st3 with allDiagnostics := d0 ++ st3.allDiagnostics } ps = _
    rw [ih st3]
    conv_rhs => rw [loadSkillsLoop, hst3]
    rfl

/-- C9: loadSkills never throws: the path loop returns a result for every
filesystem oracle; a resolved input path that does not exist contributes
exactly one warning diagnostic, placed before the diagnostics of the
remaining paths, whose processing continues unchanged; a stat failure on an
existing path is caught at that path and becomes a warning diagnostic with
the message of the exception, and the loop goes on; and a read failure
inside the skill parser is caught there and becomes a single warning
diagnostic. -/
theorem loadSkills_never_throws (fsys : FS) (yp : YamlParse) (ignF : IgnoresPred)
    (cwd p : String) (ps : List String)
    (h : fsys.existsSync (if isAbsolutePath p = true then p else resolvePath cwd p) = false) :
    (∀ opts, ∃ r, loadSkillsM fsys yp ignF opts = .ok r) ∧
    loadSkillsM fsys yp ignF ⟨cwd, p :: ps⟩
      = Except.map (fun r : LoadSkillsResult =>
          ⟨r.skills, warningDiag "skill path does not exist"
            (if isAbsolutePath p = true then p else resolvePath cwd p) :: r.diagnostics⟩)
        (loadSkillsM fsys yp ignF ⟨cwd, ps⟩) ∧
    (∀ (st : LoaderState) (q e : String),
      fsys.existsSync (if isAbsolutePath q = true then q else resolvePath cwd q) = true →
      fsys.statSync (if isAbsolutePath q = true then q else resolvePath cwd q) = .error e →
      processPathM fsys yp ignF cwd st q
        = .ok (pushWarning st e (if isAbsolutePath q = true then q else resolvePath cwd q))) ∧
    (∀ msg fp src : String,
      loadSkillFromFile (.error msg) yp fp src = (none, [warningDiag msg fp])) := by
  refine ⟨?_, ?_, ?_, ?_⟩
  · intro opts
    obtain ⟨st, hst⟩ := loadSkillsLoop_isOk fsys yp ignF opts.cwd opts.skillPaths initState
    refine ⟨⟨st.skillMap.map Prod.snd, st.allDiagnostics ++ st.collisionDiagnostics⟩, ?_⟩
    unfold loadSkillsM
    rw [hst]
    rfl
  · unfold loadSkillsM
    conv_lhs => rw [loadSkillsLoop]
    have hstep : processPathM fsys yp ignF cwd initState p
        = .ok (pushWarning initState "skill path does not exist"
            (if isAbsolutePath p = true then p else resolvePath cwd p)) := by
      unfold processPathM
      simp [h]
    rw [hstep]
    rw [show pushWarning initState "skill path does not exist"
          (if isAbsolutePath p = true then p else resolvePath cwd p)
        = { initState with allDiagnostics :=
            [warningDiag "skill path does not exist"
              (if isAbsolutePath p = true then p else resolvePath cwd p)]
              ++ initState.allDiagnostics } from rfl]
    show (do
        let st2 ← loadSkillsLoop fsys yp ignF cwd
          { initState with allDiagnostics :=
            [warningDiag "skill path does not exist"
              (if isAbsolutePath p = true then p else resolvePath cwd p)]
              ++ initState.allDiagnostics } ps
        Except.ok (⟨st2.skillMap.map Prod.snd,
          st2.allDiagnostics ++ st2.collisionDiagnostics⟩ : LoadSkillsResult)) = _
    rw [loadSkillsLoop_diagPrefix]
    obtain ⟨st, hst⟩ := loadSkillsLoop_isOk fsys yp ignF cwd ps initState
    rw [hst]
    simp [bind, Except.bind, Except.map]
  · intro st q e hq1 hq2
    unfold processPathM
    simp [hq1, hq2, Except.tryCatch, bind, Except.bind]
  · intro msg fp src
    rfl

/-- C9 witness: on an oracle where the demo path is missing, the first path
yields exactly the missing-path warning in front of the result of the
remaining empty path list. -/
theorem loadSkills_never_throws_witness :
    loadSkillsM fsMissing ypDemo matcherIgnores ⟨"/c", ["m"]⟩
      = .ok ⟨[], [warningDiag "skill path does not exist" "/c/m"]⟩ := by
  have h2 := (loadSkills_never_throws fsMissing ypDemo matcherIgnores "/c" "m" [] rfl).2.1
  rw [h2]
  decide

theorem jsTrimCore_eq_nil_iff (l : List Char) :
    jsTrimCore l = [] ↔ ∀ c ∈ l, isJsWhitespace c = true := by
  unfold jsTrimCore
  constructor
  · intro h c hc
    rw [List.reverse_eq_nil_iff, List.dropWhile_eq_nil_iff] at h
    by_cases hcd : c ∈ List.dropWhile isJsWhitespace l
    · exact h c (by simpa using hcd)
    · have hsplit : l = List.takeWhile isJsWhitespace l ++ List.dropWhile isJsWhitespace l :=
        (List.takeWhile_append_dropWhile isJsWhitespace l).symm
      rw [hsplit] at hc
      rcases List.mem_append.mp hc with h1 | h2
      · exact List.mem_takeWhile_imp h1
      · exact absurd h2 hcd
  · intro h
    have h1 : List.dropWhile isJsWhitespace l = [] :=
      List.dropWhile_eq_nil_iff.mpr (fun x hx => h x hx)
    rw [h1]
    rfl

theorem loadSkillFromFile_some_nonblank (read : Except String String) (yp : YamlParse)
    (fp src : String) (s : Skill) (d : List ResourceDiagnostic)
    (hload : loadSkillFromFile read yp fp src = (some s, d)) :
    s.description ≠ "" ∧ jsTrimStr s.description ≠ "" := by
  cases read with
  | error msg => simp [loadSkillFromFile] at hload
  | ok content =>
    simp only [loadSkillFromFile] at hload
    split at hload
    · simp at hload
    · split at hload
      · simp at hload
      · rename_i odesc dstr hdesc hb
        push_neg at hb
        have hs : s.description = dstr := by
          have h1 := congrArg Prod.fst hload
          simp only [Option.some.injEq] at h1
          rw [← h1]
        rw [hs]
        exact hb

theorem walkEntries_skills_nonblank (yp : YamlParse) (ignF : IgnoresPred)
    (source root : String) (es : FNodes) :
    ∀ dirPath irf ig, ∀ s ∈ (walkEntries yp ignF source root dirPath irf es ig).1.skills,
      s.description ≠ "" ∧ jsTrimStr s.description ≠ "" := by
  induction es using FNodes.rec
    (motive_1 := fun e => ∀ dirPath irf ig,
      ∀ s ∈ (walkEntry yp ignF source root dirPath irf e ig).1.skills,
        s.description ≠ "" ∧ jsTrimStr s.description ≠ "") with
  | file n c =>
    rename_i dirPath irf ig s hs
    unfold walkEntry at hs
    by_cases h1 : jsStartsWith n "." = true
    · simp [FNode.entryName, h1] at hs
      simp [emptyResult] at hs
    · have h1f : jsStartsWith n "." = false := by revert h1; cases jsStartsWith n "." <;> simp
      by_cases h2 : n = "node_modules"
      · simp [FNode.entryName, h1f, h2, emptyResult] at hs
      · simp only [FNode.entryName, h1f, Bool.false_eq_true, if_false, h2, if_neg h2] at hs
        by_cases h3 : ignF ig (toPosixPath (relativePath root (joinPath dirPath n))) = true
        · simp [h3, emptyResult] at hs
        · have h3f : ignF ig (toPosixPath (relativePath root (joinPath dirPath n))) = false := by
            revert h3
            cases ignF ig (toPosixPath (relativePath root (joinPath dirPath n))) <;> simp
          simp only [h3f, Bool.false_eq_true, if_false] at hs
          by_cases h4 : (irf && jsEndsWith n ".md" || !irf && n == "SKILL.md") = true
          · simp only [h4, if_true] at hs
            rcases hload : loadSkillFromFile c yp (joinPath dirPath n) source with ⟨sk, dg⟩
            rw [hload] at hs
            cases sk with
            | some skill =>
              simp only [List.mem_singleton] at hs
              subst hs
              exact loadSkillFromFile_some_nonblank c yp (joinPath dirPath n) source _ _ hload
            | none => simp at hs
          · have h4f : (irf && jsEndsWith n ".md" || !irf && n == "SKILL.md") = false := by
              revert h4
              cases (irf && jsEndsWith n ".md" || !irf && n == "SKILL.md") <;> simp
            simp [h4f, emptyResult] at hs
  | dir n sub ihsub =>
    rename_i dirPath irf ig s hs
    unfold walkEntry at hs
    by_cases h1 : jsStartsWith n "." = true
    · simp [FNode.entryName, h1, emptyResult] at hs
    · have h1f : jsStartsWith n "." = false := by revert h1; cases jsStartsWith n "." <;> simp
      by_cases h2 : n = "node_modules"
      · simp [FNode.entryName, h1f, h2, emptyResult] at hs
      · simp only [FNode.entryName, h1f, Bool.false_eq_true, if_false, if_neg h2] at hs
        by_cases h3 : ignF ig (toPosixPath (relativePath root (joinPath dirPath n)) ++ "/") = true
        · simp [h3, emptyResult] at hs
        · have h3f : ignF ig (toPosixPath (relativePath root (joinPath dirPath n)) ++ "/")
              = false := by
            revert h3
            cases ignF ig (toPosixPath (relativePath root (joinPath dirPath n)) ++ "/") <;> simp
          simp only [h3f, Bool.false_eq_true, if_false] at hs
          exact ihsub _ _ _ s hs
  | broken n =>
    rename_i dirPath irf ig s hs
    unfold walkEntry at hs
    by_cases h1 : jsStartsWith n "." = true
    · simp [FNode.entryName, h1, emptyResult] at hs
    · have h1f : jsStartsWith n "." = false := by revert h1; cases jsStartsWith n "." <;> simp
      by_cases h2 : n = "node_modules"
      · simp [FNode.entryName, h1f, h2, emptyResult] at hs
      · simp [FNode.entryName, h1f, if_neg h2, emptyResult] at hs
  | other n =>
    rename_i dirPath irf ig s hs
    unfold walkEntry at hs
    by_cases h1 : jsStartsWith n "." = true
    · simp [FNode.entryName, h1, emptyResult] at hs
    · have h1f : jsStartsWith n "." = false := by revert h1; cases jsStartsWith n "." <;> simp
      by_cases h2 : n = "node_modules"
      · simp [FNode.entryName, h1f, h2, emptyResult] at hs
      · simp [FNode.entryName, h1f, if_neg h2, emptyResult] at hs
  | nil =>
    intro dirPath irf ig s hs
    simp [walkEntries, emptyResult] at hs
  | cons e rest ihe ihrest =>
    intro dirPath irf ig s hs
    unfold walkEntries at hs
    simp only [List.mem_append] at hs
    rcases hs with hs | hs
    · exact ihe _ _ _ s hs
    · exact ihrest _ _ _ s hs

theorem addSkillOne_desc_inv (rp : String → Except String String) (st : LoaderState)
    (skill : Skill)
    (hP : ∀ q ∈ st.skillMap, q.2.description ≠ "" ∧ jsTrimStr q.2.description ≠ "")
    (hskill : skill.description ≠ "" ∧ jsTrimStr skill.description ≠ "") :
    ∀ q ∈ (addSkillOne rp st skill).skillMap,
      q.2.description ≠ "" ∧ jsTrimStr q.2.description ≠ "" := by
  rcases addSkillOne_shape rp st skill with h | ⟨ex, h⟩ | ⟨hl, h⟩ <;> rw [h]
  · exact hP
  · exact hP
  · intro q hq
    rcases List.mem_append.mp hq with hq | hq
    · exact hP q hq
    · simp only [List.mem_cons, List.not_mem_nil, or_false] at hq
      subst hq
      exact hskill

theorem foldl_addSkillOne_desc_inv (rp : String → Except String String)
    (skills : List Skill) :
    ∀ st : LoaderState,
      (∀ q ∈ st.skillMap, q.2.description ≠ "" ∧ jsTrimStr q.2.description ≠ "") →
      (∀ s ∈ skills, s.description ≠ "" ∧ jsTrimStr s.description ≠ "") →
      ∀ q ∈ (skills.foldl (addSkillOne rp) st).skillMap,
        q.2.description ≠ "" ∧ jsTrimStr q.2.description ≠ "" := by
  induction skills with
  | nil => intro st h1 h2; exact h1
  | cons s rest ih =>
    intro st h1 h2
    exact ih _ (addSkillOne_desc_inv rp st s h1 (h2 s (by simp)))
      (fun x hx => h2 x (by simp [hx]))

theorem addSkills_desc_inv (rp : String → Except String String) (st : LoaderState)
    (result : LoadSkillsResult)
    (hP : ∀ q ∈ st.skillMap, q.2.description ≠ "" ∧ jsTrimStr q.2.description ≠ "")
    (hres : ∀ s ∈ result.skills, s.description ≠ "" ∧ jsTrimStr s.description ≠ "") :
    ∀ q ∈ (addSkills rp st result).skillMap,
      q.2.description ≠ "" ∧ jsTrimStr q.2.description ≠ "" := by
  unfold addSkills
  exact foldl_addSkillOne_desc_inv rp result.skills _ hP hres

theorem processPathM_desc_inv (fsys : FS) (yp : YamlParse) (ignF : IgnoresPred)
    (cwd : String) (st : LoaderState) (p : String) (st2 : LoaderState)
    (hok : processPathM fsys yp ignF cwd st p = .ok st2)
    (hP : ∀ q ∈ st.skillMap, q.2.description ≠ "" ∧ jsTrimStr q.2.description ≠ "") :
    ∀ q ∈ st2.skillMap, q.2.description ≠ "" ∧ jsTrimStr q.2.description ≠ "" := by
  rcases processPathM_cases _ _ _ _ _ _ _ hok with ⟨d, rfl⟩ | ⟨tree, root1, rfl⟩ |
    ⟨skill, d, fp, hload, rfl⟩
  · exact hP
  · refine addSkills_desc_inv _ _ _ hP ?_
    intro s hs
    exact walkEntries_skills_nonblank yp ignF "path" root1 tree root1 true
      (addIgnoreRules [] tree root1 root1) s hs
  · refine addSkills_desc_inv _ _ _ hP ?_
    intro s hs
    simp only [List.mem_singleton] at hs
    subst hs
    exact loadSkillFromFile_some_nonblank _ _ _ _ _ _ hload

theorem loadSkillsLoop_desc_inv (fsys : FS) (yp : YamlParse) (ignF : IgnoresPred)
    (cwd : String) (paths : List String) :
    ∀ st st2 : LoaderState, loadSkillsLoop fsys yp ignF cwd st paths = .ok st2 →
      (∀ q ∈ st.skillMap, q.2.description ≠ "" ∧ jsTrimStr q.2.description ≠ "") →
      ∀ q ∈ st2.skillMap, q.2.description ≠ "" ∧ jsTrimStr q.2.description ≠ "" := by
  induction paths with
  | nil =>
    intro st st2 h h1
    unfold loadSkillsLoop at h
    simp only [Except.ok.injEq] at h
    subst h
    exact h1
  | cons p ps ih =>
    intro st st2 h h1
    unfold loadSkillsLoop at h
    rcases hstep : processPathM fsys yp ignF cwd st p with e | st3
    · rw [hstep] at h
      simp [bind, Except.bind] at h
    · rw [hstep] at h
      simp only [bind, Except.bind] at h
      exact ih _ _ h (processPathM_desc_inv _ _ _ _ _ _ _ hstep h1)

/-- C3: a file whose frontmatter description is missing, empty or blank
produces no skill while the description-required validation diagnostic is
still returned; consequently every skill a loadSkills call returns has a
description that is nonempty and nonblank. -/
theorem description_gate :
    (∀ (content : String) (yp : YamlParse) (fp src : String),
      ((parseFrontmatter yp content).1.description = none ∨
       (parseFrontmatter yp content).1.description = some "" ∨
       (∃ dd, (parseFrontmatter yp content).1.description = some dd ∧
          ∀ c ∈ dd.data, isJsWhitespace c = true)) →
      (loadSkillFromFile (.ok content) yp fp src).1 = none ∧
      warningDiag "description is required" fp
        ∈ (loadSkillFromFile (.ok content) yp fp src).2) ∧
    (∀ (fsys : FS) (yp : YamlParse) (ignF : IgnoresPred) (opts : LoadSkillsOptions)
      (r : LoadSkillsResult), loadSkillsM fsys yp ignF opts = .ok r →
      ∀ s ∈ r.skills, s.description ≠ "" ∧ jsTrimStr s.description ≠ "") := by
  constructor
  · intro content yp fp src hyp
    rcases hyp with hd | hd | ⟨dd, hd, hws⟩
    · simp [loadSkillFromFile, hd, validateDescription]
    · simp [loadSkillFromFile, hd, validateDescription]
    · have htr : jsTrimStr dd = "" := by
        unfold jsTrimStr
        rw [(jsTrimCore_eq_nil_iff dd.data).mpr hws]
      simp [loadSkillFromFile, hd, validateDescription, htr]
  · intro fsys yp ignF opts r hr s hs
    unfold loadSkillsM at hr
    rcases hloop : loadSkillsLoop fsys yp ignF opts.cwd initState opts.skillPaths with e | st
    · rw [hloop] at hr
      simp [bind, Except.bind] at hr
    · rw [hloop] at hr
      simp only [bind, Except.bind, Except.ok.injEq] at hr
      have hinv := loadSkillsLoop_desc_inv fsys yp ignF opts.cwd opts.skillPaths initState st
        hloop (by simp [initState])
      rw [← hr] at hs
      simp only [List.mem_map] at hs
      rcases hs with ⟨q, hq, rfl⟩
      exact hinv q hq

/-- C3 witness: a file without frontmatter yields no skill but keeps the
required-description warning, and a skill actually returned by a concrete
loadSkills call has a nonblank description. -/
theorem description_gate_witness :
    (loadSkillFromFile (.ok "no frontmatter") ypDemo "/a/b.md" "path").1 = none ∧
    warningDiag "description is required" "/a/b.md"
      ∈ (loadSkillFromFile (.ok "no frontmatter") ypDemo "/a/b.md" "path").2 ∧
    skillTwin1.description ≠ "" ∧ jsTrimStr skillTwin1.description ≠ "" := by
  have h1 := description_gate.1 "no frontmatter" ypDemo "/a/b.md" "path" (Or.inl (by decide))
  have h2 := description_gate.2 fsTwinNames ypDemo matcherIgnores ⟨"/", ["/u/n/SKILL.md"]⟩
    ⟨[skillTwin1], []⟩ (by decide) skillTwin1 (by decide)
  exact ⟨h1.1, h1.2, h2⟩

theorem loadSkillFromFile_some_filePath (read : Except String String) (yp : YamlParse)
    (fp src : String) (s : Skill) (d : List ResourceDiagnostic)
    (hload : loadSkillFromFile read yp fp src = (some s, d)) :
    s.filePath = fp := by
  cases read with
  | error msg => simp [loadSkillFromFile] at hload
  | ok content =>
    simp only [loadSkillFromFile] at hload
    split at hload
    · simp at hload
    · split at hload
      · simp at hload
      · have h1 := congrArg Prod.fst hload
        simp only [Option.some.injEq] at h1
        rw [← h1]

theorem joinPath_endsWith_skillmd (dirPath : String) :
    jsEndsWith (joinPath dirPath "SKILL.md") "/SKILL.md" = true := by
  unfold joinPath
  by_cases h : jsEndsWith dirPath "/" = true
  · rw [if_pos h]
    unfold jsEndsWith at h ⊢
    rcases (isSuffixOf_eq_true_iff _ _).mp h with ⟨t, ht⟩
    rw [isSuffixOf_eq_true_iff]
    refine ⟨t, ?_⟩
    rw [String.data_append, ht, List.append_assoc]
    rfl
  · have hf : jsEndsWith dirPath "/" = false := by
      revert h
      cases jsEndsWith dirPath "/" <;> simp
    rw [hf]
    simp only [Bool.false_eq_true, if_false]
    unfold jsEndsWith
    rw [isSuffixOf_eq_true_iff]
    refine ⟨dirPath.data, ?_⟩
    rw [String.data_append, String.data_append, List.append_assoc]
    rfl

/-- C6: in the walker, a visible non-ignored file entry is handed to the
skill parser exactly when includeRootFiles is true and its name ends in .md,
or includeRootFiles is false and its name is exactly SKILL.md, and
contributes nothing otherwise; an entry whose name starts with a dot is
always skipped; a visible non-ignored directory entry is processed by the
recursive call with includeRootFiles false, the same matcher state and the
same root; consequently every skill found by a walk below the top level
comes from a file path ending in /SKILL.md. -/
theorem walker_policy (yp : YamlParse) (ignF : IgnoresPred) (source root : String) :
    (∀ (dirPath : String) (irf : Bool) (ename : String) (content : Except String String)
      (ig : List String),
      jsStartsWith ename "." = false → ename ≠ "node_modules" →
      ignF ig (toPosixPath (relativePath root (joinPath dirPath ename))) = false →
      ((irf && jsEndsWith ename ".md" || !irf && ename == "SKILL.md") = true →
        walkEntry yp ignF source root dirPath irf (.file ename content) ig
          = (⟨(match (loadSkillFromFile content yp (joinPath dirPath ename) source).1 with
               | some s => [s] | none => []),
              (loadSkillFromFile content yp (joinPath dirPath ename) source).2⟩, ig)) ∧
      ((irf && jsEndsWith ename ".md" || !irf && ename == "SKILL.md") = false →
        walkEntry yp ignF source root dirPath irf (.file ename content) ig
          = (emptyResult, ig))) ∧
    (∀ (dirPath : String) (irf : Bool) (e : FNode) (ig : List String),
      jsStartsWith e.entryName "." = true →
      walkEntry yp ignF source root dirPath irf e ig = (emptyResult, ig)) ∧
    (∀ (dirPath : String) (irf : Bool) (ename : String) (sub : FNodes) (ig : List String),
      jsStartsWith ename "." = false → ename ≠ "node_modules" →
      ignF ig (toPosixPath (relativePath root (joinPath dirPath ename)) ++ "/") = false →
      walkEntry yp ignF source root dirPath irf (.dir ename sub) ig
        = loadSkillsFromDirInternal yp ignF (joinPath dirPath ename) source sub false ig root) ∧
    (∀ (es : FNodes) (dirPath : String) (ig : List String),
      ∀ s ∈ (walkEntries yp ignF source root dirPath false es ig).1.skills,
        jsEndsWith s.filePath "/SKILL.md" = true) := by
  refine ⟨?_, ?_, ?_, ?_⟩
  · intro dirPath irf ename content ig h1 h2 h3
    constructor
    · intro h4
      unfold walkEntry
      simp [FNode.entryName, h1, h2, h3, h4]
    · intro h4
      unfold walkEntry
      simp [FNode.entryName, h1, h2, h3, h4, emptyResult]
  · intro dirPath irf e ig h1
    unfold walkEntry
    simp [h1]
  · intro dirPath irf ename sub ig h1 h2 h3
    unfold walkEntry
    simp only [FNode.entryName, h1, Bool.false_eq_true, if_false, if_neg h2, h3]
    rfl
  · intro es0
    induction es0 using FNodes.rec
      (motive_1 := fun e => ∀ dirPath ig,
        ∀ s ∈ (walkEntry yp ignF source root dirPath false e ig).1.skills,
          jsEndsWith s.filePath "/SKILL.md" = true) with
    | file n c =>
      rename_i dirPath ig s hs
      unfold walkEntry at hs
      by_cases h1 : jsStartsWith n "." = true
      · simp [FNode.entryName, h1, emptyResult] at hs
      · have h1f : jsStartsWith n "." = false := by revert h1; cases jsStartsWith n "." <;> simp
        by_cases h2 : n = "node_modules"
        · simp [FNode.entryName, h1f, h2, emptyResult] at hs
        · simp only [FNode.entryName, h1f, Bool.false_eq_true, if_false, if_neg h2] at hs
          by_cases h3 : ignF ig (toPosixPath (relativePath root (joinPath dirPath n))) = true
          · simp [h3, emptyResult] at hs
          · have h3f : ignF ig (toPosixPath (relativePath root (joinPath dirPath n))) = false := by
              revert h3
              cases ignF ig (toPosixPath (relativePath root (joinPath dirPath n))) <;> simp
            simp only [h3f, Bool.false_eq_true, if_false] at hs
            by_cases h4 : n = "SKILL.md"
            · subst h4
              rcases hload : loadSkillFromFile c yp (joinPath dirPath "SKILL.md") source
                with ⟨sk, dg⟩
              rw [hload] at hs
              rw [if_pos (by decide)] at hs
              cases sk with
              | some skill =>
                simp only [List.mem_singleton] at hs
                subst hs
                rw [loadSkillFromFile_some_filePath c yp (joinPath dirPath "SKILL.md")
                  source _ _ hload]
                exact joinPath_endsWith_skillmd dirPath
              | none => simp at hs
            · have h4f : (false && jsEndsWith n ".md" || !false && n == "SKILL.md") = false := by
                simp [h4]
              rw [h4f] at hs
              simp [emptyResult] at hs
    | dir n sub ihsub =>
      rename_i dirPath ig s hs
      unfold walkEntry at hs
      by_cases h1 : jsStartsWith n "." = true
      · simp [FNode.entryName, h1, emptyResult] at hs
      · have h1f : jsStartsWith n "." = false := by revert h1; cases jsStartsWith n "." <;> simp
        by_cases h2 : n = "node_modules"
        · simp [FNode.entryName, h1f, h2, emptyResult] at hs
        · simp only [FNode.entryName, h1f, Bool.false_eq_true, if_false, if_neg h2] at hs
          by_cases h3 : ignF ig (toPosixPath (relativePath root (joinPath dirPath n)) ++ "/")
              = true
          · simp [h3, emptyResult] at hs
          · have h3f : ignF ig (toPosixPath (relativePath root (joinPath dirPath n)) ++ "/")
                = false := by
              revert h3
              cases ignF ig (toPosixPath (relativePath root (joinPath dirPath n)) ++ "/") <;> simp
            simp only [h3f, Bool.false_eq_true, if_false] at hs
            exact ihsub _ _ s hs
    | broken n =>
      rename_i dirPath ig s hs
      unfold walkEntry at hs
      by_cases h1 : jsStartsWith n "." = true
      · simp [FNode.entryName, h1, emptyResult] at hs
      · have h1f : jsStartsWith n "." = false := by revert h1; cases jsStartsWith n "." <;> simp
        by_cases h2 : n = "node_modules"
        · simp [FNode.entryName, h1f, h2, emptyResult] at hs
        · simp [FNode.entryName, h1f, if_neg h2, emptyResult] at hs
    | other n =>
      rename_i dirPath ig s hs
      unfold walkEntry at hs
      by_cases h1 : jsStartsWith n "." = true
      · simp [FNode.entryName, h1, emptyResult] at hs
      · have h1f : jsStartsWith n "." = false := by revert h1; cases jsStartsWith n "." <;> simp
        by_cases h2 : n = "node_modules"
        · simp [FNode.entryName, h1f, h2, emptyResult] at hs
        · simp [FNode.entryName, h1f, if_neg h2, emptyResult] at hs
    | nil =>
      intro dirPath ig s hs
      simp [walkEntries, emptyResult] at hs
    | cons e rest ihe ihrest =>
      intro dirPath ig s hs
      unfold walkEntries at hs
      simp only [List.mem_append] at hs
      rcases hs with hs | hs
      · exact ihe _ _ s hs
      · exact ihrest _ _ s hs

/-- C6 witness: the four policy shapes and the deep-walk property evaluated
at concrete entries. -/
theorem walker_policy_witness :
    walkEntry ypDemo matcherIgnores "path" "/r" "/r" true (.file "a.md" (.ok "x")) []
      = (⟨(match (loadSkillFromFile (.ok "x") ypDemo (joinPath "/r" "a.md") "path").1 with
           | some s => [s] | none => []),
          (loadSkillFromFile (.ok "x") ypDemo (joinPath "/r" "a.md") "path").2⟩, []) ∧
    walkEntry ypDemo matcherIgnores "path" "/r" "/r" false (.file "a.md" (.ok "x")) []
      = (emptyResult, []) ∧
    walkEntry ypDemo matcherIgnores "path" "/r" "/r" true (.file ".h.md" (.ok "x")) []
      = (emptyResult, []) ∧
    walkEntry ypDemo matcherIgnores "path" "/r" "/r" true (.dir "sub" demoSkillDir) []
      = loadSkillsFromDirInternal ypDemo matcherIgnores (joinPath "/r" "sub") "path"
          demoSkillDir false [] "/r" ∧
    (∀ s ∈ (walkEntries ypDemo matcherIgnores "path" "/r" "/r/d" false demoSkillDir []).1.skills,
      jsEndsWith s.filePath "/SKILL.md" = true) := by
  have h := walker_policy ypDemo matcherIgnores "path" "/r"
  exact ⟨(h.1 "/r" true "a.md" (.ok "x") [] (by decide) (by decide) (by decide)).1 (by decide),
    (h.1 "/r" false "a.md" (.ok "x") [] (by decide) (by decide) (by decide)).2 (by decide),
    h.2.1 "/r" true (.file ".h.md" (.ok "x")) [] (by decide),
    h.2.2.1 "/r" true "sub" demoSkillDir [] (by decide) (by decide) (by decide),
    h.2.2.2 demoSkillDir "/r/d" []⟩

theorem exists_append_of_three (a b c d : List String) :
    ∃ n, ((a ++ b) ++ c) ++ d = a ++ n :=
  ⟨b ++ (c ++ d), by simp [List.append_assoc]⟩

theorem addIgnoreRules_step_append (entries : FNodes) (pre : String)
    (acc : List String) (filename : String) :
    (match findFileContent entries filename with
      | none => acc
      | some (.error _) => acc
      | some (.ok content) =>
        acc ++ (splitLinesCore content.data).filterMap
          (fun line => prefixIgnorePattern (String.mk line) pre))
      = acc ++ (match findFileContent entries filename with
        | none => []
        | some (.error _) => []
        | some (.ok content) =>
          (splitLinesCore content.data).filterMap
            (fun line => prefixIgnorePattern (String.mk line) pre)) := by
  rcases findFileContent entries filename with _ | e
  · simp
  · rcases e with msg | content <;> simp

/-- C8: in addIgnoreRules each usable pattern line is prefixed, after the
negation marker and one leading slash are stripped, with the path of the
directory relative to the walk root followed by a slash (the empty prefix
when the directory is the root); the matcher only ever grows by the new
patterns; and in the concrete scenario a gitignore rule foo inside the
subdirectory bar becomes the scoped pattern bar/foo, which makes the walk
skip bar/foo while the sibling foo at the root is still loaded. -/
theorem ignore_scoping :
    (∀ line pre : String,
      jsTrimStr line ≠ "" → jsStartsWith (jsTrimStr line) "#" = false →
      jsStartsWith line "!" = false → jsStartsWith line "\\!" = false →
      jsStartsWith line "/" = false →
      prefixIgnorePattern line pre = some (pre ++ line)) ∧
    (∀ rest pre : String,
      jsTrimStr ("!" ++ rest) ≠ "" → jsStartsWith (jsTrimStr ("!" ++ rest)) "#" = false →
      jsStartsWith rest "/" = false →
      prefixIgnorePattern ("!" ++ rest) pre = some ("!" ++ (pre ++ rest))) ∧
    (∀ rest pre : String,
      jsTrimStr ("/" ++ rest) ≠ "" → jsStartsWith (jsTrimStr ("/" ++ rest)) "#" = false →
      prefixIgnorePattern ("/" ++ rest) pre = some (pre ++ rest)) ∧
    (∀ (ig : List String) (entries : FNodes) (dirPath root : String),
      ∃ newPats, addIgnoreRules ig entries dirPath root = ig ++ newPats) ∧
    (addIgnoreRules [] demoBarEntries "/r/bar" "/r" = ["bar/foo"] ∧
     matcherIgnores ["bar/foo"] "bar/foo/" = true ∧
     matcherIgnores ["bar/foo"] "foo/" = false ∧
     (loadSkillsFromDirInternal ypDemo matcherIgnores "/r" "path" demoRootEntries true []
        "/r").1.skills
       = [⟨"foo", "demo", "/r/foo/SKILL.md", "/r/foo", "path", false⟩]) := by
  refine ⟨?_, ?_, ?_, ?_, by decide, by decide, by decide, by decide⟩
  · intro line pre h0 h1 h3 h4 h5
    unfold prefixIgnorePattern
    rw [if_neg h0]
    simp only [h1, Bool.false_and, Bool.false_eq_true, if_false, h3, h4, h5]
    by_cases hp : pre = ""
    · subst hp
      rfl
    · rw [if_neg hp]
  · intro rest pre h0 h1 h5
    have hbang : jsStartsWith ("!" ++ rest) "!" = true := by
      unfold jsStartsWith
      rw [String.data_append]
      simp [List.isPrefixOf]
    have hdrop : jsDropStr ("!" ++ rest) 1 = rest := by
      unfold jsDropStr
      rw [String.data_append]
      rfl
    unfold prefixIgnorePattern
    rw [if_neg h0]
    simp only [h1, Bool.false_and, Bool.false_eq_true, if_false, hbang, if_true, hdrop, h5]
    by_cases hp : pre = ""
    · subst hp
      rfl
    · rw [if_neg hp]
  · intro rest pre h0 h1
    have hbang : jsStartsWith ("/" ++ rest) "!" = false := by
      unfold jsStartsWith
      rw [String.data_append]
      simp [List.isPrefixOf, show (('!' : Char) == '/') = false from by decide]
    have hbang2 : jsStartsWith ("/" ++ rest) "\\!" = false := by
      unfold jsStartsWith
      rw [String.data_append]
      simp [List.isPrefixOf, show (('\\' : Char) == '/') = false from by decide]
    have hslash : jsStartsWith ("/" ++ rest) "/" = true := by
      unfold jsStartsWith
      rw [String.data_append]
      simp [List.isPrefixOf]
    have hdrop : jsDropStr ("/" ++ rest) 1 = rest := by
      unfold jsDropStr
      rw [String.data_append]
      rfl
    unfold prefixIgnorePattern
    rw [if_neg h0]
    simp only [h1, Bool.false_and, Bool.false_eq_true, if_false, hbang, hbang2, hslash,
      if_true, hdrop]
    by_cases hp : pre = ""
    · subst hp
      rfl
    · rw [if_neg hp]
  · intro ig entries dirPath root
    unfold addIgnoreRules IGNORE_FILE_NAMES
    simp only [List.foldl]
    rw [addIgnoreRules_step_append, addIgnoreRules_step_append, addIgnoreRules_step_append]
    exact exists_append_of_three ig _ _ _

/-- C8 witness: the prefixing lemmas evaluated on the scenario rule foo under
the prefix bar with a slash and the root prefix. -/
theorem ignore_scoping_witness :
    prefixIgnorePattern "foo" "bar/" = some ("bar/" ++ "foo") ∧
    prefixIgnorePattern "foo" "" = some ("" ++ "foo") ∧
    prefixIgnorePattern ("!" ++ "foo") "bar/" = some ("!" ++ ("bar/" ++ "foo")) ∧
    prefixIgnorePattern ("/" ++ "foo") "bar/" = some ("bar/" ++ "foo") := by
  exact ⟨ignore_scoping.1 "foo" "bar/" (by decide) (by decide) (by decide) (by decide)
      (by decide),
    ignore_scoping.1 "foo" "" (by decide) (by decide) (by decide) (by decide) (by decide),
    ignore_scoping.2.1 "foo" "bar/" (by decide) (by decide) (by decide),
    ignore_scoping.2.2.1 "foo" "bar/" (by decide) (by decide)⟩

/-! Helper lemmas for the prompt formatter: the XML escaping chain as a
per-character map, and the line structure of the joined output. -/

theorem replaceChar_append (c : Char) (rep a b : List Char) :
    replaceChar c rep (a ++ b) = replaceChar c rep a ++ replaceChar c rep b := by
  simp [replaceChar]

theorem escapeXmlData_append (a b : List Char) :
    escapeXmlData (a ++ b) = escapeXmlData a ++ escapeXmlData b := by
  simp [escapeXmlData, replaceChar_append]

theorem escapeXmlData_singleton (c : Char) :
    escapeXmlData [c] = xmlEscapeChar c := by
  by_cases h1 : c = '&'
  · subst h1; decide
  · by_cases h2 : c = '<'
    · subst h2; decide
    · by_cases h3 : c = '>'
      · subst h3; decide
      · by_cases h4 : c = '"'
        · subst h4; decide
        · by_cases h5 : c = '\''
          · subst h5; decide
          · simp [escapeXmlData, replaceChar, xmlEscapeChar, h1, h2, h3, h4, h5]

theorem escapeXmlData_eq_flatMap (s : List Char) :
    escapeXmlData s = s.flatMap xmlEscapeChar := by
  induction s with
  | nil => rfl
  | cons c t ih =>
    have hc : c :: t = [c] ++ t := rfl
    rw [hc, escapeXmlData_append, ih, escapeXmlData_singleton, List.flatMap_append]
    simp

theorem xmlEscapeChar_no_lt (c : Char) : '<' ∉ xmlEscapeChar c := by
  by_cases h1 : c = '&'
  · subst h1; decide
  · by_cases h2 : c = '<'
    · subst h2; decide
    · by_cases h3 : c = '>'
      · subst h3; decide
      · by_cases h4 : c = '"'
        · subst h4; decide
        · by_cases h5 : c = '\''
          · subst h5; decide
          · simp only [xmlEscapeChar, if_neg h1, if_neg h2, if_neg h3, if_neg h4, if_neg h5,
              List.mem_singleton]
            intro h
            exact h2 h.symm

theorem escapeXmlData_no_lt (s : List Char) : '<' ∉ escapeXmlData s := by
  rw [escapeXmlData_eq_flatMap]
  intro h
  rcases List.mem_flatMap.mp h with ⟨a, _, ha⟩
  exact xmlEscapeChar_no_lt a ha

theorem escapeXml_data (s : String) : (escapeXml s).data = escapeXmlData s.data := rfl

theorem joinLines_data (ls : List String) :
    (joinLines ls).data = List.intercalate ['\n'] (ls.map String.data) := rfl

theorem splitOnNlCore_cons_nl (rest : List Char) :
    splitOnNlCore ('\n' :: rest) = [] :: splitOnNlCore rest := by
  simp [splitOnNlCore]

theorem splitOnNlCore_cons (c : Char) (rest : List Char) (h : ¬ c = '\n')
    (x : List Char) (xs : List (List Char)) (hsp : splitOnNlCore rest = x :: xs) :
    splitOnNlCore (c :: rest) = (c :: x) :: xs := by
  simp [splitOnNlCore, h, hsp]

theorem splitOnNlCore_ne_nil (l : List Char) : splitOnNlCore l ≠ [] := by
  induction l with
  | nil => simp [splitOnNlCore]
  | cons c t ih =>
    by_cases h : c = '\n'
    · subst h; rw [splitOnNlCore_cons_nl]; simp
    · cases hsp : splitOnNlCore t with
      | nil => exact absurd hsp ih
      | cons x xs => rw [splitOnNlCore_cons c t h x xs hsp]; simp

theorem splitOnNlCore_append_nl (a b : List Char) :
    splitOnNlCore (a ++ '\n' :: b) = splitOnNlCore a ++ splitOnNlCore b := by
  induction a with
  | nil => simp [splitOnNlCore_cons_nl, splitOnNlCore]
  | cons c t ih =>
    by_cases h : c = '\n'
    · subst h
      rw [List.cons_append, splitOnNlCore_cons_nl, splitOnNlCore_cons_nl, ih, List.cons_append]
    · cases hsp : splitOnNlCore t with
      | nil => exact absurd hsp (splitOnNlCore_ne_nil t)
      | cons x xs =>
        have hsp2 : splitOnNlCore (t ++ '\n' :: b) = x :: (xs ++ splitOnNlCore b) := by
          rw [ih, hsp, List.cons_append]
        rw [List.cons_append, splitOnNlCore_cons c _ h _ _ hsp2,
          splitOnNlCore_cons c t h x xs hsp, List.cons_append]

theorem splitOnNlCore_no_nl (l : List Char) (h : '\n' ∉ l) : splitOnNlCore l = [l] := by
  induction l with
  | nil => rfl
  | cons c t ih =>
    rw [List.mem_cons] at h
    push_neg at h
    have hc : ¬ c = '\n' := fun hh => h.1 hh.symm
    rw [splitOnNlCore_cons c t hc t [] (ih h.2)]

theorem splitOnNlCore_prepend :
    ∀ (pre : List Char), '\n' ∉ pre →
      ∀ (y x : List Char) (t : List (List Char)),
        splitOnNlCore y = x :: t → splitOnNlCore (pre ++ y) = (pre ++ x) :: t := by
  intro pre
  induction pre with
  | nil => intro _ y x t h; simpa using h
  | cons c p ih =>
    intro hpre y x t h
    rw [List.mem_cons] at hpre
    push_neg at hpre
    have hc : ¬ c = '\n' := fun hh => hpre.1 hh.symm
    rw [List.cons_append, splitOnNlCore_cons c _ hc _ _ (ih hpre.2 y x t h), List.cons_append]

theorem splitOnNlCore_pieces (suf : List Char) (hsuf : '\n' ∉ suf) :
    ∀ (e piece : List Char), piece ∈ splitOnNlCore (e ++ suf) →
      (∀ c ∈ piece, c ∈ e) ∨ ∃ x, piece = x ++ suf := by
  intro e
  induction e with
  | nil =>
    intro piece hp
    rw [List.nil_append, splitOnNlCore_no_nl suf hsuf, List.mem_singleton] at hp
    exact Or.inr ⟨[], by simp [hp]⟩
  | cons c t ih =>
    intro piece hp
    by_cases h : c = '\n'
    · subst h
      rw [List.cons_append, splitOnNlCore_cons_nl, List.mem_cons] at hp
      rcases hp with hp | hp
      · exact Or.inl (by simp [hp])
      · rcases ih piece hp with hl | hr
        · exact Or.inl (fun d hd => List.mem_cons_of_mem _ (hl d hd))
        · exact Or.inr hr
    · rw [List.cons_append] at hp
      cases hsp : splitOnNlCore (t ++ suf) with
      | nil => exact absurd hsp (splitOnNlCore_ne_nil _)
      | cons x xs =>
        rw [splitOnNlCore_cons c _ h x xs hsp, List.mem_cons] at hp
        rcases hp with hp | hp
        · have hx : x ∈ splitOnNlCore (t ++ suf) := by
            rw [hsp]; exact List.mem_cons_self _ _
          rcases ih x hx with hl | ⟨y, hy⟩
          · refine Or.inl ?_
            intro d hd
            rw [hp, List.mem_cons] at hd
            rcases hd with hd | hd
            · rw [hd]; exact List.mem_cons_self _ _
            · exact List.mem_cons_of_mem _ (hl d hd)
          · exact Or.inr ⟨c :: y, by rw [hp, hy]; rfl⟩
        · rcases ih piece (by rw [hsp]; exact List.mem_cons_of_mem _ hp) with hl | hr
          · exact Or.inl (fun d hd => List.mem_cons_of_mem _ (hl d hd))
          · exact Or.inr hr

theorem append_ne_of_take_ne (a x b : List Char) (n : Nat) (hn : n ≤ a.length)
    (h : ¬ a.take n = b.take n) : ¬ a ++ x = b := by
  intro he
  apply h
  rw [← List.take_append_of_le_length hn, he]

theorem append_suf_ne (a x b : List Char) (n : Nat) (hn : n ≤ a.length)
    (h : ¬ a.reverse.take n = b.reverse.take n) : ¬ x ++ a = b := by
  intro he
  apply h
  have hr : a.reverse ++ x.reverse = b.reverse := by
    rw [← List.reverse_append, he]
  rw [← List.take_append_of_le_length (by simpa using hn), hr]

theorem countP_splitOnNlCore_block (target pre esc suf : List Char)
    (hpre : '\n' ∉ pre) (hsuf : '\n' ∉ suf) (hesc : '<' ∉ esc) (htl : '<' ∈ target)
    (hleft : ∀ x, ¬ pre ++ x = target) (hright : ∀ x, ¬ x ++ suf = target) :
    List.countP (fun l => l == target) (splitOnNlCore (pre ++ (esc ++ suf))) = 0 := by
  cases hsp : splitOnNlCore (esc ++ suf) with
  | nil => exact absurd hsp (splitOnNlCore_ne_nil _)
  | cons x xs =>
    rw [splitOnNlCore_prepend pre hpre _ x xs hsp]
    have h1 : ((pre ++ x) == target) = false := by simpa using hleft x
    have h2 : List.countP (fun l => l == target) xs = 0 := by
      rw [List.countP_eq_zero]
      intro piece hmem hbeq
      have hpe : piece = target := by simpa using hbeq
      have hpm : piece ∈ splitOnNlCore (esc ++ suf) := by
        rw [hsp]; exact List.mem_cons_of_mem _ hmem
      rcases splitOnNlCore_pieces suf hsuf esc piece hpm with hl | ⟨y, hy⟩
      · refine hesc (hl '<' ?_)
        rw [hpe]; exact htl
      · refine hright y ?_
        rw [← hy]; exact hpe
    simp [List.countP_cons, h1, h2]

theorem intercalate_nl_cons (a b : List Char) (t : List (List Char)) :
    List.intercalate ['\n'] (a :: b :: t) = a ++ '\n' :: List.intercalate ['\n'] (b :: t) := by
  simp [List.intercalate, List.intersperse]

theorem countP_splitOnNlCore_intercalate (p : List Char → Bool) :
    ∀ (ls : List (List Char)), ls ≠ [] →
      List.countP p (splitOnNlCore (List.intercalate ['\n'] ls))
        = (ls.map (fun l => List.countP p (splitOnNlCore l))).sum := by
  intro ls
  induction ls with
  | nil => intro h; exact absurd rfl h
  | cons a rest ih =>
    intro _
    cases rest with
    | nil => simp [List.intercalate]
    | cons b t =>
      rw [intercalate_nl_cons, splitOnNlCore_append_nl, List.countP_append, ih (by simp)]
      simp

theorem intercalate_mem_parts (sep : List Char) :
    ∀ (ls : List (List Char)) (l : List Char), l ∈ ls →
      ∃ a b, List.intercalate sep ls = a ++ l ++ b := by
  intro ls
  induction ls with
  | nil => intro l h; exact absurd h (List.not_mem_nil l)
  | cons x rest ih =>
    intro l h
    rw [List.mem_cons] at h
    cases rest with
    | nil =>
      rcases h with h | h
      · exact ⟨[], [], by simp [List.intercalate, h]⟩
      · exact absurd h (List.not_mem_nil l)
    | cons y t =>
      have hstep : List.intercalate sep (x :: y :: t)
          = x ++ (sep ++ List.intercalate sep (y :: t)) := by
        simp [List.intercalate, List.intersperse]
      rcases h with h | h
      · refine ⟨[], sep ++ List.intercalate sep (y :: t), ?_⟩
        rw [hstep, h, List.nil_append]
      · rcases ih l h with ⟨a, b, hab⟩
        refine ⟨x ++ sep ++ a, b, ?_⟩
        rw [hstep, hab]
        simp [List.append_assoc]

theorem countP_block_content_line (pre body suf : String)
    (hpre : '\n' ∉ pre.data) (hsuf : '\n' ∉ suf.data)
    (hleft : ∀ x, ¬ pre.data ++ x = "  <skill>".data)
    (hright : ∀ x, ¬ x ++ suf.data = "  <skill>".data) :
    List.countP (fun l => l == "  <skill>".data)
      (splitOnNlCore (pre ++ escapeXml body ++ suf).data) = 0 := by
  rw [String.data_append, String.data_append, escapeXml_data, List.append_assoc]
  exact countP_splitOnNlCore_block _ _ _ _ hpre hsuf (escapeXmlData_no_lt _) (by decide)
    hleft hright

theorem skillBlock_count_sum (s : Skill) :
    (((skillBlockLines s).map String.data).map
        (fun d => List.countP (fun l => l == "  <skill>".data) (splitOnNlCore d))).sum = 1 := by
  have hname := countP_block_content_line "    <name>" s.name "</name>" (by decide) (by decide)
      (fun x => append_ne_of_take_ne _ x _ 3 (by decide) (by decide))
      (fun x => append_suf_ne _ x _ 2 (by decide) (by decide))
  have hdesc := countP_block_content_line "    <description>" s.description "</description>"
      (by decide) (by decide)
      (fun x => append_ne_of_take_ne _ x _ 3 (by decide) (by decide))
      (fun x => append_suf_ne _ x _ 2 (by decide) (by decide))
  have hloc := countP_block_content_line "    <location>" s.filePath "</location>"
      (by decide) (by decide)
      (fun x => append_ne_of_take_ne _ x _ 3 (by decide) (by decide))
      (fun x => append_suf_ne _ x _ 2 (by decide) (by decide))
  simp only [skillBlockLines, List.map_cons, List.map_nil, List.sum_cons, List.sum_nil,
    hname, hdesc, hloc]
  decide

theorem blocks_count_sum :
    ∀ (vs : List Skill),
      (((vs.flatMap skillBlockLines).map String.data).map
          (fun d => List.countP (fun l => l == "  <skill>".data) (splitOnNlCore d))).sum
        = vs.length := by
  intro vs
  induction vs with
  | nil => rfl
  | cons s vs ih =>
    rw [List.flatMap_cons, List.map_append, List.map_append, List.sum_append, ih,
      skillBlock_count_sum s, List.length_cons]
    omega

set_option maxRecDepth 16384 in
theorem preamble_count_sum :
    ((promptPreamble.map String.data).map
        (fun d => List.countP (fun l => l == "  <skill>".data) (splitOnNlCore d))).sum = 0 := by
  decide

theorem closer_count_sum :
    (((["</available_skills>"] : List String).map String.data).map
        (fun d => List.countP (fun l => l == "  <skill>".data) (splitOnNlCore d))).sum = 0 := by
  decide

theorem hasSeq_in_format (skills : List Skill) (s : Skill) (line : String)
    (hsv : s ∈ skills.filter (fun t => !t.disableModelInvocation))
    (hline : line ∈ skillBlockLines s) :
    hasSeq line.data (formatSkillsForPrompt skills).data = true := by
  have hv : ¬ (skills.filter (fun t => !t.disableModelInvocation)).isEmpty = true := by
    intro h
    rw [List.isEmpty_iff] at h
    rw [h] at hsv
    exact List.not_mem_nil s hsv
  have hout : formatSkillsForPrompt skills
      = joinLines (promptPreamble
          ++ (skills.filter (fun t => !t.disableModelInvocation)).flatMap skillBlockLines
          ++ ["</available_skills>"]) := by
    simp [formatSkillsForPrompt, hv]
  have hmem : line.data ∈ (promptPreamble
      ++ (skills.filter (fun t => !t.disableModelInvocation)).flatMap skillBlockLines
      ++ ["</available_skills>"]).map String.data := by
    refine List.mem_map_of_mem String.data ?_
    rw [List.mem_append]
    refine Or.inl ?_
    rw [List.mem_append]
    refine Or.inr ?_
    rw [List.mem_flatMap]
    exact ⟨s, hsv, hline⟩
  rcases intercalate_mem_parts ['\n'] _ line.data hmem with ⟨a, b, hab⟩
  rw [hout, joinLines_data, hasSeq_iff]
  exact ⟨a, b, hab⟩

/-- C7: formatSkillsForPrompt returns the empty string when the skill list is
empty or every skill has disableModelInvocation true; otherwise the joined
output holds exactly one line equal to the skill-block opener per skill with
disableModelInvocation false and none for the rest, each such skill
contributes its name, description and filePath wrapped in the block tags
with the text escaped, and escapeXml is exactly the per-character named
entity substitution for the five XML special characters. -/
theorem formatSkillsForPrompt_spec (skills : List Skill) :
    ((∀ s ∈ skills, s.disableModelInvocation = true) → formatSkillsForPrompt skills = "") ∧
    List.countP (fun l => l == "  <skill>".data)
        (splitOnNlCore (formatSkillsForPrompt skills).data)
      = (skills.filter (fun s => !s.disableModelInvocation)).length ∧
    (∀ s ∈ skills, s.disableModelInvocation = false →
      hasSeq ("    <name>".data ++ escapeXmlData s.name.data ++ "</name>".data)
          (formatSkillsForPrompt skills).data = true ∧
      hasSeq ("    <description>".data ++ escapeXmlData s.description.data
            ++ "</description>".data)
          (formatSkillsForPrompt skills).data = true ∧
      hasSeq ("    <location>".data ++ escapeXmlData s.filePath.data ++ "</location>".data)
          (formatSkillsForPrompt skills).data = true) ∧
    (∀ str : String, (escapeXml str).data = str.data.flatMap xmlEscapeChar) := by
  refine ⟨?_, ?_, ?_, fun str => escapeXmlData_eq_flatMap str.data⟩
  · intro hall
    have hfil : skills.filter (fun s => !s.disableModelInvocation) = [] := by
      rw [List.filter_eq_nil_iff]
      intro s hs
      simp [hall s hs]
    simp [formatSkillsForPrompt, hfil]
  · by_cases hv : (skills.filter (fun s => !s.disableModelInvocation)).isEmpty = true
    · have hfil := List.isEmpty_iff.mp hv
      have hout : formatSkillsForPrompt skills = "" := by
        simp [formatSkillsForPrompt, hv]
      rw [hout, hfil]
      decide
    · have hout : formatSkillsForPrompt skills
          = joinLines (promptPreamble
              ++ (skills.filter (fun s => !s.disableModelInvocation)).flatMap skillBlockLines
              ++ ["</available_skills>"]) := by
        simp [formatSkillsForPrompt, hv]
      rw [hout, joinLines_data,
        countP_splitOnNlCore_intercalate _ _ (by simp [promptPreamble])]
      simp only [List.map_append, List.sum_append]
      rw [preamble_count_sum, closer_count_sum, blocks_count_sum]
      omega
  · intro s hs hdis
    have hsv : s ∈ skills.filter (fun t => !t.disableModelInvocation) := by
      rw [List.mem_filter]
      refine ⟨hs, ?_⟩
      rw [hdis]
      rfl
    refine ⟨?_, ?_, ?_⟩
    · have hh := hasSeq_in_format skills s ("    <name>" ++ escapeXml s.name ++ "</name>")
        hsv (by simp [skillBlockLines])
      rwa [String.data_append, String.data_append, escapeXml_data] at hh
    · have hh := hasSeq_in_format skills s
        ("    <description>" ++ escapeXml s.description ++ "</description>")
        hsv (by simp [skillBlockLines])
      rwa [String.data_append, String.data_append, escapeXml_data] at hh
    · have hh := hasSeq_in_format skills s
        ("    <location>" ++ escapeXml s.filePath ++ "</location>")
        hsv (by simp [skillBlockLines])
      rwa [String.data_append, String.data_append, escapeXml_data] at hh

/-- C7 witness: the prompt for one visible skill holding XML-special
characters and one disabled skill has exactly one opener line and carries
the escaped name; a list with only a disabled skill formats to the empty
string. -/
theorem formatSkillsForPrompt_spec_witness :
    List.countP (fun l => l == "  <skill>".data)
        (splitOnNlCore (formatSkillsForPrompt [skillOn, skillOff]).data)
      = ([skillOn, skillOff].filter (fun s => !s.disableModelInvocation)).length ∧
    hasSeq ("    <name>".data ++ escapeXmlData skillOn.name.data ++ "</name>".data)
        (formatSkillsForPrompt [skillOn, skillOff]).data = true ∧
    formatSkillsForPrompt [skillOff] = "" := by
  refine ⟨(formatSkillsForPrompt_spec [skillOn, skillOff]).2.1,
    ((formatSkillsForPrompt_spec [skillOn, skillOff]).2.2.1 skillOn (by decide) (by decide)).1,
    (formatSkillsForPrompt_spec [skillOff]).1 (by decide)⟩

end SkillsLoader
